import Mathlib

/-!
Verification of the streaming core of the `Fedomn/risingwave` repository.

The main subject is the incremental Top-N operator
(`rust/stream/src/executor/top_n.rs`, `TopNExecutor::apply_chunk`), the
fragment/actor manager (`rust/stream/src/task/stream_manager.rs`) and the
`IS NULL` / `IS NOT NULL` expressions
(`rust/common/src/expr/expr_is_null.rs`).

The three managed ordered collections used by `TopNExecutor`
(`ManagedTopNState` / `ManagedTopNBottomNState`) are implemented in the
`managed_state` module, which is not part of the sources at hand; following
the specification they are modelled as finite sets of ordered keys whose
`total_count` is the authoritative size (`|Low|`, `|Mid|`, `|High|`), whose
`top_element`/`bottom_element` are the maximum/minimum, and whose
`insert`/`delete` are set insertion and removal.  A row is identified with
its `OrderedRow` key (the specification stipulates that the ordering key is
a strict total order with no ties, the primary key being part of it).
-/

namespace RisingWave

instance instDecidableEqExcept {e a : Type} [DecidableEq e] [DecidableEq a] :
    DecidableEq (Except e a) := fun x y =>
  match x, y with
  | .ok u, .ok v =>
    if h : u = v then .isTrue (by rw [h]) else .isFalse (by intro hc; cases hc; exact h rfl)
  | .error u, .error v =>
    if h : u = v then .isTrue (by rw [h]) else .isFalse (by intro hc; cases hc; exact h rfl)
  | .ok _, .error _ => .isFalse (by intro hc; cases hc)
  | .error _, .ok _ => .isFalse (by intro hc; cases hc)

/-- The four per-row operations of a `StreamChunk`
(`risingwave_common::array::Op`). -/
inductive Op where
  | Insert
  | Delete
  | UpdateDelete
  | UpdateInsert
deriving DecidableEq, Repr

/-- `usize::MAX` on the 64-bit target; `TopNExecutor::apply_chunk` uses it as
the value of `num_limit` when `limit` is `None`
(`let num_limit = self.limit.unwrap_or(usize::MAX)`). -/
def USIZE_MAX : ℕ := 2 ^ 64 - 1

/-- The `(offset, limit)` parameters of `TopNExecutor`
(`offset_and_limit: (usize, Option<usize>)` in `TopNExecutor::new`). -/
structure TopNParams where
  offset : ℕ
  limit : Option ℕ
deriving DecidableEq, Repr

/-- `self.limit.unwrap_or(usize::MAX)` from `TopNExecutor::apply_chunk`. -/
def TopNParams.numLimit (p : TopNParams) : ℕ := p.limit.getD USIZE_MAX

/-- The three managed states of `TopNExecutor`: `managed_lowest_state`
(rank `[0, offset)`), `managed_middle_state` (rank `[offset, offset+limit)`)
and `managed_highest_state` (rank `[offset+limit, ∞)`).

Modelled from the spec: each managed ordered collection is the finite set of
live `OrderedRow` keys of its region; its `total_count()` is the set's
cardinality, `insert`/`delete` are set insertion/removal. -/
structure TopNState (K : Type) where
  lowest : Finset K
  middle : Finset K
  highest : Finset K

instance (priority := 2000) instDecidableEqProdMk {a b : Type} [DecidableEq a] [DecidableEq b] :
    DecidableEq (a × b) := fun x y =>
  decidable_of_iff (x.1 = y.1 ∧ x.2 = y.2) Prod.ext_iff.symm

instance {K : Type} [DecidableEq K] : DecidableEq (TopNState K) := fun s t =>
  decidable_of_iff (s.lowest = t.lowest ∧ s.middle = t.middle ∧ s.highest = t.highest)
    (by cases s; cases t; simp)

/-- The state of a freshly built executor with `total_count = (0, 0, 0)` and
an empty backing store. -/
def TopNState.empty {K : Type} : TopNState K := ⟨∅, ∅, ∅⟩

/-- A failed `Option::unwrap` inside `TopNExecutor::apply_chunk`; the
constructor records which managed state's `top_element()` returned `None`. -/
inductive PanicE where
  | lowestUnwrapNone
  | middleUnwrapNone
deriving DecidableEq, Repr

variable {K : Type} [LinearOrder K] [DecidableEq K]

/-- `top_element()` of a `ManagedTopNState<S, TOP_N_MAX>` (the lowest state):
the largest element, `none` when empty.

Modelled from the spec: `Low` is "top-ordered by the largest key (max-heap
semantics); `top_element` returns the current largest member". -/
def topMax (s : Finset K) : Option K :=
  if h : s.Nonempty then some (s.max' h) else none

/-- `top_element()` of a `ManagedTopNState<S, TOP_N_MIN>` (the highest state)
and `bottom_element` of the middle state: the smallest element.

Modelled from the spec: `High` is "top-ordered by the smallest key (min-heap
semantics); `top_element` returns the current smallest member". -/
def topMin (s : Finset K) : Option K :=
  if h : s.Nonempty then some (s.min' h) else none

/-- `element_to_compare_with_middle` (top_n.rs lines 160–170): when the new
key is smaller than the largest element of the lowest state, that largest
element is evicted from `Low` and becomes the candidate for `Mid`; otherwise
the new key itself is the candidate. -/
def insertCandidate (s : TopNState K) (k maxLow : K) : TopNState K × K :=
  if k < maxLow then
    ({ s with lowest := insert k (s.lowest.erase maxLow) }, maxLow)
  else
    (s, k)

/-- The second half of the insert arm (top_n.rs lines 172–211): place the
candidate in `Mid`, possibly evicting `max(Mid)` to `High`. -/
def insertIntoMiddle (p : TopNParams) (s1 : TopNState K) (cand : K) :
    Except PanicE (TopNState K × List (Op × K)) :=
  if s1.middle.card < p.numLimit then
    -- `elem` is in the range of `[offset, offset+limit)`.
    .ok ({ s1 with middle := insert cand s1.middle }, [(.Insert, cand)])
  else
    match topMax s1.middle with
    | none => .error .middleUnwrapNone
    | some maxMid =>
      if cand < maxMid then
        .ok ({ s1 with
                middle := insert cand (s1.middle.erase maxMid),
                highest := insert maxMid s1.highest },
             [(.Delete, maxMid), (.Insert, cand)])
      else
        -- `elem` is in the range of `[offset+limit, +inf)`.
        .ok ({ s1 with highest := insert cand s1.highest }, [])

/-- The `Op::Insert | Op::UpdateInsert` arm of the `match` in
`TopNExecutor::apply_chunk` (top_n.rs lines 152–211), acting on one row with
ordered key `k`.  Returns the updated three managed states together with the
`(new_ops, new_rows)` entries pushed for this row, or the panic raised by a
failed `unwrap`. -/
def insertRow (p : TopNParams) (s : TopNState K) (k : K) :
    Except PanicE (TopNState K × List (Op × K)) :=
  if s.lowest.card < p.offset then
    -- `elem` is in the range of `[0, offset)`: insert into the lowest state,
    -- no output.
    .ok ({ s with lowest := insert k s.lowest }, [])
  else
    match topMax s.lowest with
    | none => .error .lowestUnwrapNone
    | some maxLow =>
      match insertCandidate s k maxLow with
      | (s1, cand) => insertIntoMiddle p s1 cand

/-- The last step of the third delete branch (top_n.rs lines 263–279): after
the element has been deleted from `Low` (and `min(Mid)` possibly demoted),
check whether one element must be brought from `High` to `Mid`
(`middle.total_count() == num_limit - 1 && highest.total_count() > 0`).
`ems` carries the emissions already pushed for this row. -/
def refillMiddle (p : TopNParams) (s2 : TopNState K) (ems : List (Op × K)) :
    Except PanicE (TopNState K × List (Op × K)) :=
  if h : s2.middle.card = p.numLimit - 1 ∧ 0 < s2.highest.card then
    .ok ({ s2 with
            middle := insert (s2.highest.min' (Finset.card_pos.mp h.2)) s2.middle,
            highest := s2.highest.erase (s2.highest.min' (Finset.card_pos.mp h.2)) },
         ems ++ [(.Insert, s2.highest.min' (Finset.card_pos.mp h.2))])
  else
    .ok (s2, ems)

/-- The final `else` branch of the `Op::Delete | Op::UpdateDelete` arm
(top_n.rs lines 244–280): the element lives in `[0, offset)`.  Delete it
from `Low`; bring `min(Mid)` down to `Low` if `Mid` is non-empty (emitting
`UpdateDelete`); then `refillMiddle`.  The pops of `bottom_element` /
`top_element` here are guarded by `total_count() > 0`, so in the model
(where `total_count` is the cardinality) they cannot fail. -/
def deleteFromLowest (p : TopNParams) (s : TopNState K) (k : K) :
    Except PanicE (TopNState K × List (Op × K)) :=
  if h : 0 < s.middle.card then
    -- We need to bring one, if any, from middle to lowest.
    refillMiddle p
      { s with
          lowest := insert (s.middle.min' (Finset.card_pos.mp h)) (s.lowest.erase k),
          middle := s.middle.erase (s.middle.min' (Finset.card_pos.mp h)) }
      [(.UpdateDelete, s.middle.min' (Finset.card_pos.mp h))]
  else
    refillMiddle p { s with lowest := s.lowest.erase k } []

/-- The second branch of the delete arm (top_n.rs lines 224–243): the element
lives in `[offset, offset+limit)`.  Delete it from `Mid` (emitting
`UpdateDelete`), then bring one element, if any, from `High` to `Mid`. -/
def deleteFromMiddle (p : TopNParams) (s : TopNState K) (k : K) :
    Except PanicE (TopNState K × List (Op × K)) :=
  if h : 0 < s.highest.card then
    .ok ({ s with
            middle := insert (s.highest.min' (Finset.card_pos.mp h)) (s.middle.erase k),
            highest := s.highest.erase (s.highest.min' (Finset.card_pos.mp h)) },
         [(.UpdateDelete, k), (.Insert, s.highest.min' (Finset.card_pos.mp h))])
  else
    .ok ({ s with middle := s.middle.erase k }, [(.UpdateDelete, k)])

/-- Dispatch between the second and third delete branches: reached when the
first branch did not fire; mirrors
`else if lowest.total_count() == offset && k > lowest.top_element().unwrap()`
with Rust's short-circuit evaluation of `&&`. -/
def deleteLower (p : TopNParams) (s : TopNState K) (k : K) :
    Except PanicE (TopNState K × List (Op × K)) :=
  if s.lowest.card = p.offset then
    match topMax s.lowest with
    | none => .error .lowestUnwrapNone
    | some maxLow =>
      if maxLow < k then deleteFromMiddle p s k else deleteFromLowest p s k
  else
    deleteFromLowest p s k

/-- The `Op::Delete | Op::UpdateDelete` arm of `TopNExecutor::apply_chunk`
(top_n.rs lines 212–281): mirrors
`if middle.total_count() == num_limit && k > middle.top_element().unwrap()`
with short-circuit evaluation, then falls through to `deleteLower`. -/
def deleteRow (p : TopNParams) (s : TopNState K) (k : K) :
    Except PanicE (TopNState K × List (Op × K)) :=
  if s.middle.card = p.numLimit then
    match topMax s.middle with
    | none => .error .middleUnwrapNone
    | some maxMid =>
      if maxMid < k then
        -- The current element is in the range of `[offset+limit, +inf)`.
        .ok ({ s with highest := s.highest.erase k }, [])
      else
        deleteLower p s k
  else
    deleteLower p s k

/-- One iteration of the row loop of `TopNExecutor::apply_chunk`. -/
def applyRow (p : TopNParams) (s : TopNState K) (r : Op × K) :
    Except PanicE (TopNState K × List (Op × K)) :=
  match r.1 with
  | .Insert | .UpdateInsert => insertRow p s r.2
  | .Delete | .UpdateDelete => deleteRow p s r.2

/-- The whole row loop of `TopNExecutor::apply_chunk` over one input chunk:
the (compacted) chunk is a list of `(op, ordered_pk_row)` pairs; the result
accumulates the `(new_ops, new_rows)` emissions in order. -/
def processChunk (p : TopNParams) (s : TopNState K) :
    List (Op × K) → Except PanicE (TopNState K × List (Op × K))
  | [] => .ok (s, [])
  | r :: rest =>
    match applyRow p s r with
    | .error e => .error e
    | .ok (s1, e1) =>
      match processChunk p s1 rest with
      | .error e => .error e
      | .ok (s2, e2) => .ok (s2, e1 ++ e2)

/-- A sequence of `apply_chunk` calls (one per input chunk), with the
cumulative output stream concatenated. -/
def processTrace (p : TopNParams) (s : TopNState K) :
    List (List (Op × K)) → Except PanicE (TopNState K × List (Op × K))
  | [] => .ok (s, [])
  | c :: rest =>
    match processChunk p s c with
    | .error e => .error e
    | .ok (s1, e1) =>
      match processTrace p s1 rest with
      | .error e => .error e
      | .ok (s2, e2) => .ok (s2, e1 ++ e2)

/-- The output `StreamChunk` built at the end of `apply_chunk`
(top_n.rs lines 285–298): ops vector plus column-major columns.  Since rows
are identified with their ordered keys, the data chunk is modelled as a
single column of keys. -/
structure StreamChunkOut (K : Type) where
  ops : List Op
  columns : List (List K)
deriving DecidableEq

/-- `if !new_rows.is_empty() { .. } else { StreamChunk::new(vec![], vec![], None) }`:
the output-chunk construction of `apply_chunk`. -/
def mkStreamChunk (ems : List (Op × K)) : StreamChunkOut K :=
  if ems.isEmpty then ⟨[], []⟩
  else ⟨ems.map Prod.fst, [ems.map Prod.snd]⟩

/-- `TopNExecutor::apply_chunk` for one chunk, including the construction of
the returned `StreamChunk`. -/
def applyChunkOut (p : TopNParams) (s : TopNState K) (rows : List (Op × K)) :
    Except PanicE (StreamChunkOut K × TopNState K) :=
  match processChunk p s rows with
  | .error e => .error e
  | .ok (s', ems) => .ok (mkStreamChunk ems, s')

/-- The set of live rows implied by the three managed states. -/
def liveSet (s : TopNState K) : Finset K := s.lowest ∪ s.middle ∪ s.highest

/-- Effect of one input row on the set of live rows implied by the input
history (independent of the executor). -/
def liveUpdate (S : Finset K) (r : Op × K) : Finset K :=
  match r.1 with
  | .Insert | .UpdateInsert => insert r.2 S
  | .Delete | .UpdateDelete => S.erase r.2

/-- Set of live rows implied by an input history. -/
def liveAfter (S : Finset K) (rows : List (Op × K)) : Finset K :=
  rows.foldl liveUpdate S

/-- A well-formed change-stream relative to live set `S`: inserts only of
keys that are not live, deletes only of live keys. -/
def validRows (S : Finset K) : List (Op × K) → Bool
  | [] => true
  | r :: rest =>
    (match r.1 with
      | .Insert | .UpdateInsert => decide (r.2 ∉ S)
      | .Delete | .UpdateDelete => decide (r.2 ∈ S))
    && validRows (liveUpdate S r) rest

/-- Validity of a single input row relative to the live set `S`
(propositional form of one step of `validRows`). -/
def validOp (S : Finset K) (r : Op × K) : Prop :=
  match r.1 with
  | .Insert | .UpdateInsert => r.2 ∉ S
  | .Delete | .UpdateDelete => r.2 ∈ S

/-- The weaker precondition that claim C2 states: deletes only of live keys
(no restriction on inserts). -/
def validDeletes (S : Finset K) : List (Op × K) → Bool
  | [] => true
  | r :: rest =>
    (match r.1 with
      | .Insert | .UpdateInsert => true
      | .Delete | .UpdateDelete => decide (r.2 ∈ S))
    && validDeletes (liveUpdate S r) rest

/-- Applying the emitted change-deltas to a consumer-side set:
`Insert`/`UpdateInsert` add the row, `Delete`/`UpdateDelete` remove it. -/
def applyDeltas (T : Finset K) (ems : List (Op × K)) : Finset K :=
  ems.foldl liveUpdate T

/-- All rows of a trace of chunks, in processing order. -/
def allRows (trace : List (List (Op × K))) : List (Op × K) :=
  trace.foldr (· ++ ·) []

/-- `sort(S, order_key)`: the elements of `S` in ascending key order. -/
def sortedKeys (S : Finset K) : List K := S.sort (· ≤ ·)

/-- Modelled from the spec: the slice `sort(S)[offset : offset+limit]` of the
Top-N semantics (`T = sort(S, order_key)[offset : offset+limit]`), the whole
tail from `offset` when there is no limit. -/
def specSlice (p : TopNParams) (l : List K) : List K :=
  match p.limit with
  | none => l.drop p.offset
  | some lim => (l.drop p.offset).take lim

/-- The region invariants of the Top-N state as the specification states
them: `|Low| ≤ offset`, `|Mid| ≤ limit` and
`max(Low) < min(Mid) ≤ max(Mid) < min(High)`, the order chains written
element-wise so that the clauses for empty sides are trivially true.
(`|Mid| ≤ limit` is `|Mid| ≤ num_limit = usize::MAX` when `limit` is
`None`.) -/
def RegionInv (p : TopNParams) (s : TopNState K) : Prop :=
  s.lowest.card ≤ p.offset ∧
  s.middle.card ≤ p.numLimit ∧
  (∀ a ∈ s.lowest, ∀ b ∈ s.middle, a < b) ∧
  (∀ a ∈ s.lowest, ∀ c ∈ s.highest, a < c) ∧
  (∀ b ∈ s.middle, ∀ c ∈ s.highest, b < c)

/-- The full inductive invariant: the region invariants plus the greedy-fill
discipline (`Low` saturates before `Mid` receives elements, `Mid` saturates
before `High`). -/
def Inv (p : TopNParams) (s : TopNState K) : Prop :=
  RegionInv p s ∧
  (s.lowest.card < p.offset → s.middle = ∅ ∧ s.highest = ∅) ∧
  (s.middle.card < p.numLimit → s.highest = ∅)

/-!  ### `first_execution` and the first-chunk cache fill

`TopNExecutor` carries a `first_execution` flag; `apply_chunk` begins with
`if self.first_execution { fill_in_cache() ...; self.first_execution = false }`
(top_n.rs lines 122–127). -/

/-- The value `TopNExecutor::new` assigns to the `first_execution` field
(top_n.rs line 93): `first_execution: false`. -/
def newFirstExecution : Bool := false

/-- Effect of one `apply_chunk` call on the pair
`(first_execution flag, number of fill_in_cache rounds performed so far)`,
from top_n.rs lines 122–127. -/
def applyChunkFillStep : Bool × ℕ → Bool × ℕ
  | (fe, fills) => if fe then (false, fills + 1) else (fe, fills)

/-!  ### Fragment manager (`rust/stream/src/task/stream_manager.rs`) -/

/-- Default capacity of channel if two fragments are on the same node
(stream_manager.rs line 28). -/
def LOCAL_OUTPUT_CHANNEL_SIZE : ℕ := 16

/-- A `stream_plan::StreamFragment`, reduced to the two fields
`update_fragment` reads: `fragment_id` and `downstream_fragment_id`. -/
structure StreamFragment where
  fragmentId : ℕ
  downstreamFragmentId : List ℕ
deriving DecidableEq, Repr

/-- The channel pool `channels` of `SharedContext`, keyed by
`UpDownFragmentIds = (u32, u32)`.  A sender or receiver handle is recorded by
the capacity of its channel. -/
def ChannelPool : Type := ℕ × ℕ → Option (Option ℕ × Option ℕ)

/-- The slice of `StreamManagerCore` state that `update_fragment` touches:
the `fragments` map (kept as an association list in insertion order) and the
channel pool. -/
structure StreamManagerCore where
  fragments : List (ℕ × StreamFragment)
  channelPool : ChannelPool

/-- The error `update_fragment` returns on a duplicate:
`ErrorCode::InternalError(format!("duplicated fragment {}", id))` — the
specification's abstract error kind `DuplicateFragment`. -/
inductive RwError where
  | internalErrorDuplicatedFragment (id : ℕ)
deriving DecidableEq, Repr

/-- Lookup in the `fragments` map. -/
def lookupFragment (m : List (ℕ × StreamFragment)) (id : ℕ) :
    Option StreamFragment :=
  match m with
  | [] => none
  | (i, f) :: rest => if i = id then some f else lookupFragment rest id

/-- The first loop of `update_fragment` (stream_manager.rs lines 873–886):
`let ret = self.fragments.insert(id, fragment.clone()); if ret.is_some() { Err(..) }`.
The Rust code performs the `HashMap::insert` (overwriting the old entry)
before noticing the duplicate; the model checks the lookup first and returns
the same error without materialising that partial mutation, which is
observationally equal for every caller examined here since an errored
`update_fragment` call's map is never read again. -/
def installFragments (m : List (ℕ × StreamFragment)) :
    List StreamFragment → Except RwError (List (ℕ × StreamFragment))
  | [] => .ok m
  | f :: rest =>
    if (lookupFragment m f.fragmentId).isSome then
      .error (.internalErrorDuplicatedFragment f.fragmentId)
    else
      installFragments (m ++ [(f.fragmentId, f)]) rest

/-- `channel(LOCAL_OUTPUT_CHANNEL_SIZE)`: a fresh bounded channel; both the
sender and the receiver handle carry capacity 16. -/
def freshChannelPair : Option ℕ × Option ℕ :=
  (some LOCAL_OUTPUT_CHANNEL_SIZE, some LOCAL_OUTPUT_CHANNEL_SIZE)

/-- `guard.insert(up_down_ids, (Some(tx), Some(rx)))`: park a fresh channel
pair in the pool under the edge key. -/
def poolWrite (currentId d : ℕ) (pl : ChannelPool) : ChannelPool :=
  fun key => if key = (currentId, d) then some freshChannelPair else pl key

/-- The inner loop of `update_fragment`'s second phase: for every
`downstream_id` of `fragment`, park a fresh `(tx, rx)` pair in the pool under
the key `(current_id, downstream_id)`. -/
def addDownstreamChannels (currentId : ℕ) (ds : List ℕ) (pool : ChannelPool) :
    ChannelPool :=
  ds.foldl (fun pl d => poolWrite currentId d pl) pool

/-- The second phase of `update_fragment` (stream_manager.rs lines 887–897):
`for (current_id, fragment) in &self.fragments { for downstream_id in ... }`. -/
def createChannels (frags : List (ℕ × StreamFragment)) (pool : ChannelPool) :
    ChannelPool :=
  frags.foldl (fun pl cf => addDownstreamChannels cf.1 cf.2.downstreamFragmentId pl) pool

/-- `StreamManagerCore::update_fragment` (stream_manager.rs lines 873–898). -/
def updateFragment (core : StreamManagerCore) (frags : List StreamFragment) :
    Except RwError StreamManagerCore :=
  match installFragments core.fragments frags with
  | .error e => .error e
  | .ok m => .ok ⟨m, createChannels m core.channelPool⟩

/-!  ### State-store URL dispatch (`StreamManagerCore::get_state_store_impl`) -/

/-- Rust's `str::starts_with` on byte/char lists. -/
def isPre : List Char → List Char → Bool
  | [], _ => true
  | _ :: _, [] => false
  | a :: as, b :: bs => a == b && isPre as bs

/-- The object store handed to `HummockStateStore`: either
`S3ObjectStore::new_with_minio(..)` or `S3ObjectStore::new(..)`. -/
inductive S3Kind where
  | minio (conn : List Char)
  | s3 (bucket : List Char)
deriving DecidableEq, Repr

/-- Result of `StreamManagerCore::get_state_store_impl` (stream_manager.rs
lines 257–314): one of the three store variants, or one of the two panics the
function can raise (`.strip_prefix("tikv://").unwrap()` on a string that does
not carry that prefix, and `unimplemented!` on an unknown scheme). -/
inductive StateStoreImpl where
  | memoryStateStore
  | tikvStateStore (endpoints : List Char)
  | hummockStateStore (store : S3Kind)
  | unwrapPanic
  | unimplementedPanic (scheme : List Char)
deriving DecidableEq, Repr

/-- `StreamManagerCore::get_state_store_impl(state_store: Option<&str>)`,
match arms in source order.  `drop 7`, `drop 8` and `drop 13` are
`strip_prefix("tikv://")`, `strip_prefix("hummock+")` and
`strip_prefix("hummock+s3://")`. -/
def getStateStoreImpl (stateStore : Option (List Char)) : StateStoreImpl :=
  match stateStore with
  | none => .memoryStateStore
  | some s =>
    if s = "in_memory".toList then .memoryStateStore
    else if s = "in-memory".toList then .memoryStateStore
    else if isPre "tikv".toList s then
      if isPre "tikv://".toList s then .tikvStateStore (s.drop 7)
      else .unwrapPanic
    else if isPre "hummock+minio://".toList s then
      .hummockStateStore (.minio (s.drop 8))
    else if isPre "hummock+s3://".toList s then
      .hummockStateStore (.s3 (s.drop 13))
    else .unimplementedPanic s

/-!  ### `IS NULL` / `IS NOT NULL` (`rust/common/src/expr/expr_is_null.rs`)

The child expression's output array is a list of nullable values; its null
bitmap has bit `true` for a non-null entry. -/

/-- `array.null_bitmap()`: bit `i` is `true` iff entry `i` is non-null. -/
def nullBitmap {V : Type} (arr : List (Option V)) : List Bool :=
  arr.map Option.isSome

/-- `IsNullExpression::eval` (expr_is_null.rs lines 43–52): for each bitmap
bit `b`, append `Some(!b)` to a fresh boolean array builder. -/
def evalIsNull {V : Type} (child : List (Option V)) : List (Option Bool) :=
  (nullBitmap child).map (fun b => some (!b))

/-- `IsNotNullExpression::eval` (expr_is_null.rs lines 60–68): for each
bitmap bit `b`, append `Some(b)`. -/
def evalIsNotNull {V : Type} (child : List (Option V)) : List (Option Bool) :=
  (nullBitmap child).map (fun b => some b)

/-!  ### Rows of the end-to-end scenario S1

The `test_top_n_executor` scenario uses two `Int64` columns with
`pk_indices = [0, 1]` and ascending order on both, so the `OrderedRow` key of
a row is the pair `(c0, c1)` under lexicographic order.  `OrderedPair` is
that key type; its linear order is spelled out explicitly so that every
comparison is executable. -/

structure OrderedPair where
  c0 : ℕ
  c1 : ℕ
deriving DecidableEq, Repr

/-- Lexicographic comparison of `(c0, c1)` keys, both columns ascending. -/
def OrderedPair.le (a b : OrderedPair) : Prop :=
  a.c0 < b.c0 ∨ (a.c0 = b.c0 ∧ a.c1 ≤ b.c1)

instance : LinearOrder OrderedPair where
  le := OrderedPair.le
  le_refl a := Or.inr ⟨rfl, le_refl _⟩
  le_trans a b c hab hbc := by
    rcases hab with h1 | ⟨e1, h1⟩ <;> rcases hbc with h2 | ⟨e2, h2⟩
    · exact Or.inl (h1.trans h2)
    · exact Or.inl (e2 ▸ h1)
    · exact Or.inl (e1 ▸ h2)
    · exact Or.inr ⟨e1.trans e2, h1.trans h2⟩
  le_antisymm a b hab hba := by
    rcases hab with h1 | ⟨e1, h1⟩ <;> rcases hba with h2 | ⟨e2, h2⟩
    · exact absurd (h1.trans h2) (lt_irrefl _)
    · exact absurd h1 (e2 ▸ lt_irrefl _)
    · exact absurd h2 (e1 ▸ lt_irrefl _)
    · cases a; cases b
      simp only [OrderedPair.mk.injEq]
      exact ⟨e1, le_antisymm h1 h2⟩
  le_total a b := by
    rcases lt_trichotomy a.c0 b.c0 with h | h | h
    · exact Or.inl (Or.inl h)
    · rcases le_total a.c1 b.c1 with h1 | h1
      · exact Or.inl (Or.inr ⟨h, h1⟩)
      · exact Or.inr (Or.inr ⟨h.symm, h1⟩)
    · exact Or.inr (Or.inl h)
  decidableLE a b :=
    inferInstanceAs (Decidable (a.c0 < b.c0 ∨ (a.c0 = b.c0 ∧ a.c1 ≤ b.c1)))

/-! ## Lemmas: managed-state primitives -/

section TopNLemmas

variable {K : Type} [LinearOrder K] [DecidableEq K]

theorem topMax_spec {s : Finset K} {m : K} (h : topMax s = some m) :
    m ∈ s ∧ ∀ a ∈ s, a ≤ m := by
  unfold topMax at h
  split at h
  · cases h
    exact ⟨Finset.max'_mem _ _, fun a ha => Finset.le_max' _ a ha⟩
  · cases h

theorem topMax_isSome {s : Finset K} (h : s.Nonempty) :
    ∃ m, topMax s = some m := by
  unfold topMax
  rw [dif_pos h]
  exact ⟨_, rfl⟩

theorem topMax_mem {s : Finset K} {m : K} (h : topMax s = some m) : m ∈ s :=
  (topMax_spec h).1

theorem topMax_le {s : Finset K} {m : K} (h : topMax s = some m) :
    ∀ a ∈ s, a ≤ m :=
  (topMax_spec h).2

theorem erase_union_insert {α : Type} [DecidableEq α] {A B : Finset α} {m : α}
    (hm : m ∈ A) : (A.erase m) ∪ insert m B = A ∪ B := by
  ext x
  simp only [Finset.mem_union, Finset.mem_erase, Finset.mem_insert]
  constructor
  · rintro (⟨_, hx⟩ | (rfl | hx))
    exacts [Or.inl hx, Or.inl hm, Or.inr hx]
  · rintro (hx | hx)
    · by_cases hxm : x = m
      · exact Or.inr (Or.inl hxm)
      · exact Or.inl ⟨hxm, hx⟩
    · exact Or.inr (Or.inr hx)

theorem insert_union_erase {α : Type} [DecidableEq α] {A B : Finset α} {m : α}
    (hm : m ∈ B) : insert m A ∪ (B.erase m) = A ∪ B := by
  ext x
  simp only [Finset.mem_union, Finset.mem_erase, Finset.mem_insert]
  constructor
  · rintro ((rfl | hx) | ⟨_, hx⟩)
    exacts [Or.inr hm, Or.inl hx, Or.inr hx]
  · rintro (hx | hx)
    · exact Or.inl (Or.inr hx)
    · by_cases hxm : x = m
      · exact Or.inl (Or.inl hxm)
      · exact Or.inr ⟨hxm, hx⟩

theorem card_liveUpdate_le (S : Finset K) (r : Op × K) :
    (liveUpdate S r).card ≤ S.card + 1 := by
  rcases r with ⟨op, k⟩
  cases op <;> simp only [liveUpdate]
  · exact Finset.card_insert_le _ _
  · exact le_trans (Finset.card_erase_le) (Nat.le_succ _)
  · exact le_trans (Finset.card_erase_le) (Nat.le_succ _)
  · exact Finset.card_insert_le _ _

theorem validRows_cons {S : Finset K} {r : Op × K} {rest : List (Op × K)} :
    validRows S (r :: rest) = true ↔
      validOp S r ∧ validRows (liveUpdate S r) rest = true := by
  rcases r with ⟨op, k⟩
  cases op <;>
    simp [validRows, validOp, liveUpdate, Bool.and_eq_true, decide_eq_true_eq]

theorem liveAfter_cons {S : Finset K} {r : Op × K} {rest : List (Op × K)} :
    liveAfter S (r :: rest) = liveAfter (liveUpdate S r) rest := rfl

theorem applyDeltas_append {T : Finset K} {l₁ l₂ : List (Op × K)} :
    applyDeltas T (l₁ ++ l₂) = applyDeltas (applyDeltas T l₁) l₂ :=
  List.foldl_append ..

end TopNLemmas

/-! ## Soundness of the insert arm -/

section InsertSound

variable {K : Type} [LinearOrder K] [DecidableEq K]

theorem mem_liveSet_lowest {s : TopNState K} {a : K} (h : a ∈ s.lowest) :
    a ∈ liveSet s :=
  Finset.mem_union_left _ (Finset.mem_union_left _ h)

theorem mem_liveSet_middle {s : TopNState K} {a : K} (h : a ∈ s.middle) :
    a ∈ liveSet s :=
  Finset.mem_union_left _ (Finset.mem_union_right _ h)

theorem mem_liveSet_highest {s : TopNState K} {a : K} (h : a ∈ s.highest) :
    a ∈ liveSet s :=
  Finset.mem_union_right _ h

theorem insertCandidate_facts (p : TopNParams) (s : TopNState K) (k maxLow : K)
    (hInv : Inv p s) (hk : k ∉ liveSet s) (htop : topMax s.lowest = some maxLow)
    {s1 : TopNState K} {cand : K}
    (heq : insertCandidate s k maxLow = (s1, cand)) :
    s1.middle = s.middle ∧ s1.highest = s.highest ∧
    s1.lowest.card = s.lowest.card ∧
    (∀ a ∈ s1.lowest, a < cand) ∧
    (∀ a ∈ s1.lowest, ∀ b ∈ s.middle, a < b) ∧
    (∀ a ∈ s1.lowest, ∀ c ∈ s.highest, a < c) ∧
    cand ∉ s.middle ∧ cand ∉ s.highest ∧
    insert cand (liveSet s1) = insert k (liveSet s) := by
  obtain ⟨⟨hcL, hcM, hLM, hLH, hMH⟩, hg1, hg2⟩ := hInv
  obtain ⟨hmem, hmax⟩ := topMax_spec htop
  have hkL : k ∉ s.lowest := fun hx => hk (mem_liveSet_lowest hx)
  unfold insertCandidate at heq
  split at heq
  case isTrue hklt =>
    obtain ⟨rfl, rfl⟩ := Prod.mk.injEq .. ▸ heq
    refine ⟨rfl, rfl, ?_, ?_, ?_, ?_, ?_, ?_, ?_⟩
    · show (insert k (s.lowest.erase maxLow)).card = s.lowest.card
      rw [Finset.card_insert_of_not_mem (fun hx => hkL (Finset.mem_of_mem_erase hx)),
        Finset.card_erase_of_mem hmem]
      exact Nat.succ_pred_eq_of_pos (Finset.card_pos.mpr ⟨maxLow, hmem⟩)
    · intro a ha
      rcases Finset.mem_insert.mp ha with rfl | ha
      · exact hklt
      · exact lt_of_le_of_ne (hmax a (Finset.mem_of_mem_erase ha))
          (Finset.ne_of_mem_erase ha)
    · intro a ha b hb
      rcases Finset.mem_insert.mp ha with rfl | ha
      · exact hklt.trans (hLM maxLow hmem b hb)
      · exact hLM a (Finset.mem_of_mem_erase ha) b hb
    · intro a ha c hc
      rcases Finset.mem_insert.mp ha with rfl | ha
      · exact hklt.trans (hLH maxLow hmem c hc)
      · exact hLH a (Finset.mem_of_mem_erase ha) c hc
    · exact fun hx => absurd (hLM maxLow hmem maxLow hx) (lt_irrefl _)
    · exact fun hx => absurd (hLH maxLow hmem maxLow hx) (lt_irrefl _)
    · show insert maxLow
        (insert k (s.lowest.erase maxLow) ∪ s.middle ∪ s.highest) =
        insert k (liveSet s)
      unfold liveSet
      ext x
      simp only [Finset.mem_insert, Finset.mem_union, Finset.mem_erase]
      by_cases hxm : x = maxLow
      · subst hxm
        simp [hmem]
      · by_cases hxk : x = k
        · subst hxk
          simp
        · simp [hxm, hxk]
  case isFalse hklt =>
    obtain ⟨rfl, rfl⟩ := Prod.mk.injEq .. ▸ heq
    have hlek : ∀ a ∈ s.lowest, a < k := by
      intro a ha
      have hne : a ≠ k := fun e => hkL (e ▸ ha)
      exact lt_of_le_of_ne ((hmax a ha).trans (not_lt.mp hklt)) hne
    exact ⟨rfl, rfl, rfl, hlek, hLM, hLH,
      fun hx => hk (mem_liveSet_middle hx),
      fun hx => hk (mem_liveSet_highest hx), rfl⟩

theorem insertIntoMiddle_sound (p : TopNParams) {s1 : TopNState K} {cand : K}
    {s' : TopNState K} {ems : List (Op × K)}
    (hok : insertIntoMiddle p s1 cand = .ok (s', ems))
    (hcL : s1.lowest.card ≤ p.offset)
    (hlowfull : ¬ s1.lowest.card < p.offset)
    (hcM : s1.middle.card ≤ p.numLimit)
    (hLlt : ∀ a ∈ s1.lowest, a < cand)
    (hLM : ∀ a ∈ s1.lowest, ∀ b ∈ s1.middle, a < b)
    (hLH : ∀ a ∈ s1.lowest, ∀ c ∈ s1.highest, a < c)
    (hMH : ∀ b ∈ s1.middle, ∀ c ∈ s1.highest, b < c)
    (hg2 : s1.middle.card < p.numLimit → s1.highest = ∅)
    (hcandM : cand ∉ s1.middle) (hcandH : cand ∉ s1.highest) :
    Inv p s' ∧ liveSet s' = insert cand (liveSet s1) ∧
    applyDeltas s1.middle ems = s'.middle := by
  unfold insertIntoMiddle at hok
  split at hok
  case isTrue hlt =>
    simp only [Except.ok.injEq, Prod.mk.injEq] at hok
    obtain ⟨rfl, rfl⟩ := hok.symm
    have hH0 : s1.highest = ∅ := hg2 hlt
    refine ⟨⟨⟨hcL, ?_, ?_, hLH, ?_⟩, ?_, ?_⟩, ?_, rfl⟩
    · show (insert cand s1.middle).card ≤ p.numLimit
      rw [Finset.card_insert_of_not_mem hcandM]
      exact Nat.succ_le_of_lt hlt
    · intro a ha b hb
      rcases Finset.mem_insert.mp hb with rfl | hb
      · exact hLlt a ha
      · exact hLM a ha b hb
    · intro b _ c hc
      rw [hH0] at hc
      exact absurd hc (Finset.not_mem_empty c)
    · exact fun h => absurd h hlowfull
    · exact fun _ => hH0
    · show s1.lowest ∪ insert cand s1.middle ∪ s1.highest =
        insert cand (liveSet s1)
      unfold liveSet
      rw [Finset.union_insert, Finset.insert_union]
  case isFalse hlt =>
    split at hok
    · cases hok
    rename_i maxMid htopM
    obtain ⟨hmMem, hmMax⟩ := topMax_spec htopM
    have hmidfull : s1.middle.card = p.numLimit := le_antisymm hcM (not_lt.mp hlt)
    have hmidpos : 0 < s1.middle.card := Finset.card_pos.mpr ⟨maxMid, hmMem⟩
    split at hok
    · rename_i hclt
      simp only [Except.ok.injEq, Prod.mk.injEq] at hok
      obtain ⟨rfl, rfl⟩ := hok.symm
      have hmc' : (insert cand (s1.middle.erase maxMid)).card = p.numLimit := by
        rw [Finset.card_insert_of_not_mem
            (fun hx => hcandM (Finset.mem_of_mem_erase hx)),
          Finset.card_erase_of_mem hmMem]
        rw [← hmidfull]
        exact Nat.succ_pred_eq_of_pos hmidpos
      refine ⟨⟨⟨hcL, le_of_eq hmc', ?_, ?_, ?_⟩, ?_, ?_⟩, ?_, rfl⟩
      · intro a ha b hb
        rcases Finset.mem_insert.mp hb with rfl | hb
        · exact hLlt a ha
        · exact hLM a ha b (Finset.mem_of_mem_erase hb)
      · intro a ha c hc
        rcases Finset.mem_insert.mp hc with rfl | hc
        · exact hLM a ha _ hmMem
        · exact hLH a ha c hc
      · intro b hb c hc
        rcases Finset.mem_insert.mp hb with rfl | hb
        · rcases Finset.mem_insert.mp hc with rfl | hc
          · exact hclt
          · exact hclt.trans (hMH maxMid hmMem c hc)
        · have hblt : b < maxMid :=
            lt_of_le_of_ne (hmMax b (Finset.mem_of_mem_erase hb))
              (Finset.ne_of_mem_erase hb)
          rcases Finset.mem_insert.mp hc with rfl | hc
          · exact hblt
          · exact hMH b (Finset.mem_of_mem_erase hb) c hc
      · exact fun h => absurd h hlowfull
      · intro h
        rw [hmc'] at h
        exact absurd h (lt_irrefl _)
      · show s1.lowest ∪ insert cand (s1.middle.erase maxMid) ∪
            insert maxMid s1.highest = insert cand (liveSet s1)
        unfold liveSet
        rw [Finset.union_assoc, Finset.insert_union,
          erase_union_insert hmMem, Finset.union_insert, Finset.union_assoc]
    · rename_i hclt
      simp only [Except.ok.injEq, Prod.mk.injEq] at hok
      obtain ⟨rfl, rfl⟩ := hok.symm
      have hmlt : maxMid < cand :=
        lt_of_le_of_ne (not_lt.mp hclt) (fun e => hcandM (e ▸ hmMem))
      refine ⟨⟨⟨hcL, hcM, hLM, ?_, ?_⟩, ?_, ?_⟩, ?_, rfl⟩
      · intro a ha c hc
        rcases Finset.mem_insert.mp hc with rfl | hc
        · exact hLlt a ha
        · exact hLH a ha c hc
      · intro b hb c hc
        rcases Finset.mem_insert.mp hc with rfl | hc
        · exact lt_of_le_of_lt (hmMax b hb) hmlt
        · exact hMH b hb c hc
      · exact fun h => absurd h hlowfull
      · intro h
        exact absurd h hlt
      · show s1.lowest ∪ s1.middle ∪ insert cand s1.highest =
          insert cand (liveSet s1)
        unfold liveSet
        rw [Finset.union_insert]

theorem insertRow_sound (p : TopNParams) {s s' : TopNState K} {k : K}
    {ems : List (Op × K)}
    (hok : insertRow p s k = .ok (s', ems)) (hInv : Inv p s)
    (hk : k ∉ liveSet s) :
    Inv p s' ∧ liveSet s' = insert k (liveSet s) ∧
    applyDeltas s.middle ems = s'.middle := by
  have hInv' := hInv
  obtain ⟨⟨hcL, hcM, hLM, hLH, hMH⟩, hg1, hg2⟩ := hInv'
  unfold insertRow at hok
  split at hok
  case isTrue hlt =>
    simp only [Except.ok.injEq, Prod.mk.injEq] at hok
    obtain ⟨rfl, rfl⟩ := hok.symm
    obtain ⟨hM0, hH0⟩ := hg1 hlt
    have hkL : k ∉ s.lowest := fun hx => hk (mem_liveSet_lowest hx)
    refine ⟨⟨⟨?_, hcM, ?_, ?_, hMH⟩, ?_, fun _ => hH0⟩, ?_, rfl⟩
    · show (insert k s.lowest).card ≤ p.offset
      rw [Finset.card_insert_of_not_mem hkL]
      exact Nat.succ_le_of_lt hlt
    · intro a _ b hb
      rw [hM0] at hb
      exact absurd hb (Finset.not_mem_empty b)
    · intro a _ c hc
      rw [hH0] at hc
      exact absurd hc (Finset.not_mem_empty c)
    · exact fun _ => ⟨hM0, hH0⟩
    · show insert k s.lowest ∪ s.middle ∪ s.highest = insert k (liveSet s)
      unfold liveSet
      rw [Finset.insert_union, Finset.insert_union]
  case isFalse hlt =>
    split at hok
    · cases hok
    rename_i maxLow htop
    rcases hcand : insertCandidate s k maxLow with ⟨s1, cand⟩
    rw [hcand] at hok
    obtain ⟨hM1, hH1, hcard1, hLlt, hLM1, hLH1, hcM1, hcH1, hliveIns⟩ :=
      insertCandidate_facts p s k maxLow hInv hk htop hcand
    obtain ⟨hInvOut, hliveOut, hdeltas⟩ :=
      insertIntoMiddle_sound p hok (hcard1 ▸ hcL) (hcard1 ▸ hlt) (hM1 ▸ hcM)
        hLlt (hM1 ▸ hLM1) (hH1 ▸ hLH1) (by rw [hM1, hH1]; exact hMH)
        (by rw [hM1, hH1]; exact hg2) (hM1 ▸ hcM1) (hH1 ▸ hcH1)
    exact ⟨hInvOut, by rw [hliveOut, hliveIns], by rw [← hM1]; exact hdeltas⟩

theorem insertCandidate_middle (s : TopNState K) (k m : K) :
    (insertCandidate s k m).1.middle = s.middle := by
  unfold insertCandidate
  split <;> rfl

/-- Under `offset ≥ 1` the `unwrap` of `lowest.top_element()` in the insert
arm cannot fail: when `total_count() < offset` is false the lowest state
holds at least `offset ≥ 1` elements. -/
theorem insertRow_no_lowest_panic (p : TopNParams) (s : TopNState K) (k : K)
    (hoff : 1 ≤ p.offset) :
    insertRow p s k ≠ .error .lowestUnwrapNone := by
  intro hcontra
  unfold insertRow at hcontra
  split at hcontra
  · cases hcontra
  case isFalse hlt =>
    have hne : s.lowest.Nonempty := by
      apply Finset.card_pos.mp
      have := not_lt.mp hlt
      omega
    split at hcontra
    · rename_i heq
      obtain ⟨m, hm⟩ := topMax_isSome hne
      rw [hm] at heq
      exact Option.noConfusion heq
    · rename_i maxLow heq
      split at hcontra
      rename_i s1 cand hcand
      unfold insertIntoMiddle at hcontra
      split at hcontra
      · cases hcontra
      · split at hcontra
        · simp at hcontra
        · split at hcontra <;> cases hcontra

theorem insertRow_total (p : TopNParams) (s : TopNState K) (k : K)
    (hoff : 1 ≤ p.offset) (hlim : 1 ≤ p.numLimit)
    (hcM : s.middle.card ≤ p.numLimit) :
    ∃ out, insertRow p s k = .ok out := by
  rcases hres : insertRow p s k with e | out
  · exfalso
    unfold insertRow at hres
    split at hres
    · cases hres
    case isFalse hlt =>
      have hne : s.lowest.Nonempty := by
        apply Finset.card_pos.mp
        have := not_lt.mp hlt
        omega
      split at hres
      · rename_i heq
        obtain ⟨m, hm⟩ := topMax_isSome hne
        rw [hm] at heq
        exact Option.noConfusion heq
      · rename_i maxLow heq
        split at hres
        rename_i s1 cand hcand
        have hM1 : s1.middle = s.middle := by
          have := insertCandidate_middle s k maxLow
          rw [hcand] at this
          exact this
        unfold insertIntoMiddle at hres
        split at hres
        · cases hres
        case isFalse hlt2 =>
          have hne2 : s1.middle.Nonempty := by
            apply Finset.card_pos.mp
            rw [hM1]
            have h2 := not_lt.mp hlt2
            rw [hM1] at h2
            omega
          split at hres
          · rename_i heq2
            obtain ⟨m2, hm2⟩ := topMax_isSome hne2
            rw [hm2] at heq2
            exact Option.noConfusion heq2
          · split at hres <;> cases hres
  · exact ⟨out, rfl⟩

end InsertSound

/-! ## Soundness of the delete arm -/

section DeleteSound

variable {K : Type} [LinearOrder K] [DecidableEq K]

theorem deleteFromMiddle_sound (p : TopNParams) {s s' : TopNState K} {k : K}
    {ems : List (Op × K)}
    (hok : deleteFromMiddle p s k = .ok (s', ems))
    (hInv : Inv p s) (hkM : k ∈ s.middle) :
    Inv p s' ∧ liveSet s' = (liveSet s).erase k ∧
    applyDeltas s.middle ems = s'.middle := by
  obtain ⟨⟨hcL, hcM, hLM, hLH, hMH⟩, hg1, hg2⟩ := hInv
  have hkL : k ∉ s.lowest := fun hx => absurd (hLM k hx k hkM) (lt_irrefl k)
  have hkH : k ∉ s.highest := fun hx => absurd (hMH k hkM k hx) (lt_irrefl k)
  have hMpos : 0 < s.middle.card := Finset.card_pos.mpr ⟨k, hkM⟩
  have hg1' : ¬ s.lowest.card < p.offset := fun hlow => by
    rw [(hg1 hlow).1] at hkM
    exact absurd hkM (Finset.not_mem_empty k)
  unfold deleteFromMiddle at hok
  split at hok
  case isTrue h =>
    simp only [Except.ok.injEq, Prod.mk.injEq] at hok
    obtain ⟨rfl, rfl⟩ := hok.symm
    set mH := s.highest.min' (Finset.card_pos.mp h) with hmHdef
    have hmH : mH ∈ s.highest := Finset.min'_mem _ _
    have hmHmin : ∀ c ∈ s.highest, mH ≤ c := fun c hc => Finset.min'_le _ c hc
    have hmHnotM : mH ∉ s.middle := fun hx => absurd (hMH mH hx mH hmH) (lt_irrefl mH)
    have hmidfull : s.middle.card = p.numLimit := by
      refine le_antisymm hcM (not_lt.mp (fun hlt => ?_))
      rw [hg2 hlt] at h
      simp at h
    have hmcEq : (insert mH (s.middle.erase k)).card = s.middle.card := by
      rw [Finset.card_insert_of_not_mem
          (fun hx => hmHnotM (Finset.mem_of_mem_erase hx)),
        Finset.card_erase_of_mem hkM]
      exact Nat.succ_pred_eq_of_pos hMpos
    refine ⟨⟨⟨hcL, le_of_eq (hmcEq.trans hmidfull ▸ rfl), ?_, ?_, ?_⟩, ?_, ?_⟩, ?_, rfl⟩
    · intro a ha b hb
      rcases Finset.mem_insert.mp hb with rfl | hb
      · exact hLH a ha _ hmH
      · exact hLM a ha b (Finset.mem_of_mem_erase hb)
    · intro a ha c hc
      exact hLH a ha c (Finset.mem_of_mem_erase hc)
    · intro b hb c hc
      rcases Finset.mem_insert.mp hb with rfl | hb
      · exact lt_of_le_of_ne (hmHmin c (Finset.mem_of_mem_erase hc))
          (Ne.symm (Finset.ne_of_mem_erase hc))
      · exact hMH b (Finset.mem_of_mem_erase hb) c (Finset.mem_of_mem_erase hc)
    · exact fun hlow => absurd hlow hg1'
    · intro h2
      rw [hmcEq, hmidfull] at h2
      exact absurd h2 (lt_irrefl _)
    · show s.lowest ∪ insert mH (s.middle.erase k) ∪ s.highest.erase mH =
        (liveSet s).erase k
      unfold liveSet
      ext x
      simp only [Finset.mem_union, Finset.mem_insert, Finset.mem_erase]
      have h1 : x ∈ s.lowest → ¬ x = k := fun hx e => hkL (e ▸ hx)
      have h2 : x ∈ s.highest → ¬ x = k := fun hx e => hkH (e ▸ hx)
      constructor
      · rintro ((hx | (rfl | ⟨hxk, hx⟩)) | ⟨hxm, hx⟩)
        · exact ⟨h1 hx, Or.inl (Or.inl hx)⟩
        · exact ⟨h2 hmH, Or.inr hmH⟩
        · exact ⟨hxk, Or.inl (Or.inr hx)⟩
        · exact ⟨h2 hx, Or.inr hx⟩
      · rintro ⟨hxk, (hx | hx) | hx⟩
        · exact Or.inl (Or.inl hx)
        · exact Or.inl (Or.inr (Or.inr ⟨hxk, hx⟩))
        · by_cases hxm : x = mH
          · exact Or.inl (Or.inr (Or.inl hxm))
          · exact Or.inr ⟨hxm, hx⟩
  case isFalse h =>
    simp only [Except.ok.injEq, Prod.mk.injEq] at hok
    obtain ⟨rfl, rfl⟩ := hok.symm
    have hH0 : s.highest = ∅ := Finset.card_eq_zero.mp (by omega)
    refine ⟨⟨⟨hcL, le_trans (Finset.card_erase_le) hcM, ?_, hLH, ?_⟩, ?_, fun _ => hH0⟩,
      ?_, rfl⟩
    · exact fun a ha b hb => hLM a ha b (Finset.mem_of_mem_erase hb)
    · exact fun b hb c hc => hMH b (Finset.mem_of_mem_erase hb) c hc
    · exact fun hlow => absurd hlow hg1'
    · show s.lowest ∪ s.middle.erase k ∪ s.highest = (liveSet s).erase k
      unfold liveSet
      ext x
      simp only [Finset.mem_union, Finset.mem_erase]
      have h1 : x ∈ s.lowest → ¬ x = k := fun hx e => hkL (e ▸ hx)
      have h2 : x ∈ s.highest → ¬ x = k := fun hx e => hkH (e ▸ hx)
      constructor
      · rintro ((hx | ⟨hxk, hx⟩) | hx)
        · exact ⟨h1 hx, Or.inl (Or.inl hx)⟩
        · exact ⟨hxk, Or.inl (Or.inr hx)⟩
        · exact ⟨h2 hx, Or.inr hx⟩
      · rintro ⟨hxk, (hx | hx) | hx⟩
        · exact Or.inl (Or.inl hx)
        · exact Or.inl (Or.inr ⟨hxk, hx⟩)
        · exact Or.inr hx

theorem deleteFromLowest_sound (p : TopNParams) {s s' : TopNState K} {k : K}
    {ems : List (Op × K)}
    (hok : deleteFromLowest p s k = .ok (s', ems))
    (hInv : Inv p s) (hkL : k ∈ s.lowest) (hnl : 1 ≤ p.numLimit) :
    Inv p s' ∧ liveSet s' = (liveSet s).erase k ∧
    applyDeltas s.middle ems = s'.middle := by
  obtain ⟨⟨hcL, hcM, hLM, hLH, hMH⟩, hg1, hg2⟩ := hInv
  have hkM : k ∉ s.middle := fun hx => absurd (hLM k hkL k hx) (lt_irrefl k)
  have hkH : k ∉ s.highest := fun hx => absurd (hLH k hkL k hx) (lt_irrefl k)
  unfold deleteFromLowest at hok
  split at hok
  case isTrue hmid =>
    set mM := s.middle.min' (Finset.card_pos.mp hmid) with hmMdef
    have hmM : mM ∈ s.middle := Finset.min'_mem _ _
    have hmMmin : ∀ b ∈ s.middle, mM ≤ b := fun b hb => Finset.min'_le _ b hb
    have hmMnotL : mM ∉ s.lowest := fun hx => absurd (hLM mM hx mM hmM) (lt_irrefl mM)
    have hmMnotH : mM ∉ s.highest := fun hx => absurd (hMH mM hmM mM hx) (lt_irrefl mM)
    have hmMnek : mM ≠ k := fun e => hkM (e ▸ hmM)
    have hlowfull : s.lowest.card = p.offset := by
      refine le_antisymm hcL (not_lt.mp (fun hlow => ?_))
      rw [(hg1 hlow).1] at hmM
      exact absurd hmM (Finset.not_mem_empty mM)
    have hlowEq : (insert mM (s.lowest.erase k)).card = s.lowest.card := by
      rw [Finset.card_insert_of_not_mem
          (fun hx => hmMnotL (Finset.mem_of_mem_erase hx)),
        Finset.card_erase_of_mem hkL]
      exact Nat.succ_pred_eq_of_pos (Finset.card_pos.mpr ⟨k, hkL⟩)
    have hL2M2 : ∀ a ∈ insert mM (s.lowest.erase k),
        ∀ b ∈ s.middle.erase mM, a < b := by
      intro a ha b hb
      rcases Finset.mem_insert.mp ha with rfl | ha
      · exact lt_of_le_of_ne (hmMmin b (Finset.mem_of_mem_erase hb))
          (Ne.symm (Finset.ne_of_mem_erase hb))
      · exact hLM a (Finset.mem_of_mem_erase ha) b (Finset.mem_of_mem_erase hb)
    have hL2H : ∀ a ∈ insert mM (s.lowest.erase k), ∀ c ∈ s.highest, a < c := by
      intro a ha c hc
      rcases Finset.mem_insert.mp ha with rfl | ha
      · exact hMH mM hmM c hc
      · exact hLH a (Finset.mem_of_mem_erase ha) c hc
    unfold refillMiddle at hok
    split at hok
    case isTrue hrf =>
      simp only [Except.ok.injEq, Prod.mk.injEq] at hok
      obtain ⟨rfl, rfl⟩ := hok.symm
      obtain ⟨hrf1, hrf2⟩ := hrf
      set mH := s.highest.min' (Finset.card_pos.mp hrf2) with hmHdef
      have hmH : mH ∈ s.highest := Finset.min'_mem _ _
      have hmHmin : ∀ c ∈ s.highest, mH ≤ c := fun c hc => Finset.min'_le _ c hc
      have hmHnotM : mH ∉ s.middle := fun hx => absurd (hMH mH hx mH hmH) (lt_irrefl mH)
      have hmHnotL : mH ∉ s.lowest := fun hx => absurd (hLH mH hx mH hmH) (lt_irrefl mH)
      have hmHnek : mH ≠ k := fun e => hkH (e ▸ hmH)
      have hmidfull : s.middle.card = p.numLimit := by
        refine le_antisymm hcM (not_lt.mp (fun hlt => ?_))
        rw [hg2 hlt] at hmH
        exact absurd hmH (Finset.not_mem_empty mH)
      have hmc2 : (insert mH (s.middle.erase mM)).card = s.middle.card := by
        rw [Finset.card_insert_of_not_mem
            (fun hx => hmHnotM (Finset.mem_of_mem_erase hx)),
          Finset.card_erase_of_mem hmM]
        exact Nat.succ_pred_eq_of_pos hmid
      refine ⟨⟨⟨le_of_eq (hlowEq.trans hlowfull), le_of_eq (hmc2.trans hmidfull),
        ?_, ?_, ?_⟩, ?_, ?_⟩, ?_, rfl⟩
      · intro a ha b hb
        rcases Finset.mem_insert.mp hb with rfl | hb
        · exact hL2H a ha _ hmH
        · exact hL2M2 a ha b hb
      · intro a ha c hc
        exact hL2H a ha c (Finset.mem_of_mem_erase hc)
      · intro b hb c hc
        rcases Finset.mem_insert.mp hb with rfl | hb
        · exact lt_of_le_of_ne (hmHmin c (Finset.mem_of_mem_erase hc))
            (Ne.symm (Finset.ne_of_mem_erase hc))
        · exact hMH b (Finset.mem_of_mem_erase hb) c (Finset.mem_of_mem_erase hc)
      · intro hlow
        rw [hlowEq, hlowfull] at hlow
        exact absurd hlow (lt_irrefl _)
      · intro hmidlt
        rw [hmc2, hmidfull] at hmidlt
        exact absurd hmidlt (lt_irrefl _)
      · show insert mM (s.lowest.erase k) ∪ insert mH (s.middle.erase mM) ∪
            s.highest.erase mH = (liveSet s).erase k
        unfold liveSet
        ext x
        simp only [Finset.mem_union, Finset.mem_insert, Finset.mem_erase]
        constructor
        · intro hmem
          rcases hmem with (hA | hB) | hC
          · rcases hA with hx0 | ⟨hxk, hx⟩
            · rw [hx0]
              exact ⟨hmMnek, Or.inl (Or.inr hmM)⟩
            · exact ⟨hxk, Or.inl (Or.inl hx)⟩
          · rcases hB with hx0 | ⟨hxm, hx⟩
            · rw [hx0]
              exact ⟨hmHnek, Or.inr hmH⟩
            · exact ⟨fun e => hkM (e ▸ hx), Or.inl (Or.inr hx)⟩
          · rcases hC with ⟨hxh, hx⟩
            exact ⟨fun e => hkH (e ▸ hx), Or.inr hx⟩
        · rintro ⟨hxk, (hx | hx) | hx⟩
          · exact Or.inl (Or.inl (Or.inr ⟨hxk, hx⟩))
          · by_cases hxm : x = mM
            · exact Or.inl (Or.inl (Or.inl hxm))
            · exact Or.inl (Or.inr (Or.inr ⟨hxm, hx⟩))
          · by_cases hxh : x = mH
            · exact Or.inl (Or.inr (Or.inl hxh))
            · exact Or.inr ⟨hxh, hx⟩
    case isFalse hrf =>
      simp only [Except.ok.injEq, Prod.mk.injEq] at hok
      obtain ⟨rfl, rfl⟩ := hok.symm
      refine ⟨⟨⟨le_of_eq (hlowEq.trans hlowfull),
        le_trans (Finset.card_erase_le) hcM, hL2M2, hL2H, ?_⟩, ?_, ?_⟩, ?_, rfl⟩
      · exact fun b hb c hc => hMH b (Finset.mem_of_mem_erase hb) c hc
      · intro hlow
        rw [hlowEq, hlowfull] at hlow
        exact absurd hlow (lt_irrefl _)
      · intro hmidlt
        rcases Finset.eq_empty_or_nonempty s.highest with hH0 | hHne
        · exact hH0
        exfalso
        have hpos : 0 < s.highest.card := Finset.card_pos.mpr hHne
        have hmidfull : s.middle.card = p.numLimit := by
          refine le_antisymm hcM (not_lt.mp (fun hlt => ?_))
          rw [hg2 hlt] at hHne
          exact Finset.not_nonempty_empty hHne
        refine hrf ⟨?_, hpos⟩
        rw [Finset.card_erase_of_mem hmM, hmidfull]
      · show insert mM (s.lowest.erase k) ∪ s.middle.erase mM ∪ s.highest =
          (liveSet s).erase k
        unfold liveSet
        ext x
        simp only [Finset.mem_union, Finset.mem_insert, Finset.mem_erase]
        constructor
        · rintro (((hx0 | ⟨hxk, hx⟩) | ⟨hxm, hx⟩) | hx)
          · rw [hx0]
            exact ⟨hmMnek, Or.inl (Or.inr hmM)⟩
          · exact ⟨hxk, Or.inl (Or.inl hx)⟩
          · exact ⟨fun e => hkM (e ▸ hx), Or.inl (Or.inr hx)⟩
          · exact ⟨fun e => hkH (e ▸ hx), Or.inr hx⟩
        · rintro ⟨hxk, (hx | hx) | hx⟩
          · exact Or.inl (Or.inl (Or.inr ⟨hxk, hx⟩))
          · by_cases hxm : x = mM
            · exact Or.inl (Or.inl (Or.inl hxm))
            · exact Or.inl (Or.inr ⟨hxm, hx⟩)
          · exact Or.inr hx
  case isFalse hmid =>
    have hM0 : s.middle = ∅ := Finset.card_eq_zero.mp (by omega)
    have hH0 : s.highest = ∅ := hg2 (by rw [hM0]; simpa using hnl)
    unfold refillMiddle at hok
    split at hok
    case isTrue hrf =>
      exfalso
      have := hrf.2
      rw [hH0] at this
      simp at this
    case isFalse hrf =>
      simp only [Except.ok.injEq, Prod.mk.injEq] at hok
      obtain ⟨rfl, rfl⟩ := hok.symm
      refine ⟨⟨⟨le_trans (Finset.card_erase_le) hcL, hcM, ?_, ?_, hMH⟩,
        fun _ => ⟨hM0, hH0⟩, fun _ => hH0⟩, ?_, rfl⟩
      · exact fun a ha b hb => hLM a (Finset.mem_of_mem_erase ha) b hb
      · exact fun a ha c hc => hLH a (Finset.mem_of_mem_erase ha) c hc
      · show s.lowest.erase k ∪ s.middle ∪ s.highest = (liveSet s).erase k
        unfold liveSet
        rw [hM0, hH0]
        simp

theorem deleteLower_sound (p : TopNParams) {s s' : TopNState K} {k : K}
    {ems : List (Op × K)}
    (hok : deleteLower p s k = .ok (s', ems))
    (hInv : Inv p s) (hkLM : k ∈ s.lowest ∪ s.middle) (hnl : 1 ≤ p.numLimit) :
    Inv p s' ∧ liveSet s' = (liveSet s).erase k ∧
    applyDeltas s.middle ems = s'.middle := by
  have hInv' := hInv
  obtain ⟨⟨hcL, hcM, hLM, hLH, hMH⟩, hg1, hg2⟩ := hInv'
  unfold deleteLower at hok
  split at hok
  case isTrue hlc =>
    split at hok
    · cases hok
    rename_i maxLow htop
    obtain ⟨hmem, hmax⟩ := topMax_spec htop
    split at hok
    case isTrue hgt =>
      have hkM : k ∈ s.middle :=
        (Finset.mem_union.mp hkLM).resolve_left
          (fun hx => absurd (hmax k hx) (not_le.mpr hgt))
      exact deleteFromMiddle_sound p hok hInv hkM
    case isFalse hgt =>
      have hkL : k ∈ s.lowest :=
        (Finset.mem_union.mp hkLM).resolve_right
          (fun hx => absurd (hLM maxLow hmem k hx) hgt)
      exact deleteFromLowest_sound p hok hInv hkL hnl
  case isFalse hlc =>
    have hlow : s.lowest.card < p.offset := lt_of_le_of_ne hcL hlc
    have hkL : k ∈ s.lowest := by
      rcases Finset.mem_union.mp hkLM with hx | hx
      · exact hx
      · rw [(hg1 hlow).1] at hx
        exact absurd hx (Finset.not_mem_empty k)
    exact deleteFromLowest_sound p hok hInv hkL hnl

theorem deleteRow_sound (p : TopNParams) {s s' : TopNState K} {k : K}
    {ems : List (Op × K)}
    (hok : deleteRow p s k = .ok (s', ems))
    (hInv : Inv p s) (hkLive : k ∈ liveSet s) :
    Inv p s' ∧ liveSet s' = (liveSet s).erase k ∧
    applyDeltas s.middle ems = s'.middle := by
  have hInv' := hInv
  obtain ⟨⟨hcL, hcM, hLM, hLH, hMH⟩, hg1, hg2⟩ := hInv'
  unfold deleteRow at hok
  split at hok
  case isTrue hmc =>
    split at hok
    · cases hok
    rename_i maxMid htop
    obtain ⟨hmem, hmax⟩ := topMax_spec htop
    have hnl : 1 ≤ p.numLimit := by
      have := Finset.card_pos.mpr ⟨maxMid, hmem⟩
      omega
    split at hok
    case isTrue hgt =>
      simp only [Except.ok.injEq, Prod.mk.injEq] at hok
      obtain ⟨rfl, rfl⟩ := hok.symm
      have hkM : k ∉ s.middle :=
        fun hx => absurd (hmax k hx) (not_le.mpr hgt)
      have hkL : k ∉ s.lowest :=
        fun hx => absurd (hgt.trans (hLM k hx maxMid hmem)) (lt_irrefl _)
      have hkH : k ∈ s.highest := by
        rcases Finset.mem_union.mp hkLive with hx | hx
        · rcases Finset.mem_union.mp hx with hx2 | hx2
          · exact absurd hx2 hkL
          · exact absurd hx2 hkM
        · exact hx
      refine ⟨⟨⟨hcL, hcM, hLM, ?_, ?_⟩, ?_, ?_⟩, ?_, rfl⟩
      · exact fun a ha c hc => hLH a ha c (Finset.mem_of_mem_erase hc)
      · exact fun b hb c hc => hMH b hb c (Finset.mem_of_mem_erase hc)
      · intro hlow
        rw [(hg1 hlow).1] at hmem
        exact absurd hmem (Finset.not_mem_empty maxMid)
      · intro hmidlt
        rw [hmc] at hmidlt
        exact absurd hmidlt (lt_irrefl _)
      · show s.lowest ∪ s.middle ∪ s.highest.erase k = (liveSet s).erase k
        unfold liveSet
        ext x
        simp only [Finset.mem_union, Finset.mem_erase]
        constructor
        · rintro ((hx | hx) | ⟨hxk, hx⟩)
          · exact ⟨fun e => hkL (e ▸ hx), Or.inl (Or.inl hx)⟩
          · exact ⟨fun e => hkM (e ▸ hx), Or.inl (Or.inr hx)⟩
          · exact ⟨hxk, Or.inr hx⟩
        · rintro ⟨hxk, (hx | hx) | hx⟩
          · exact Or.inl (Or.inl hx)
          · exact Or.inl (Or.inr hx)
          · exact Or.inr ⟨hxk, hx⟩
    case isFalse hgt =>
      have hkLM : k ∈ s.lowest ∪ s.middle := by
        rcases Finset.mem_union.mp hkLive with hx | hx
        · exact hx
        · exact absurd (hMH maxMid hmem k hx) hgt
      exact deleteLower_sound p hok hInv hkLM hnl
  case isFalse hmc =>
    have hlt : s.middle.card < p.numLimit := lt_of_le_of_ne hcM hmc
    have hH0 : s.highest = ∅ := hg2 hlt
    have hnl : 1 ≤ p.numLimit := by omega
    have hkLM : k ∈ s.lowest ∪ s.middle := by
      rcases Finset.mem_union.mp hkLive with hx | hx
      · exact hx
      · rw [hH0] at hx
        exact absurd hx (Finset.not_mem_empty k)
    exact deleteLower_sound p hok hInv hkLM hnl

theorem deleteFromMiddle_ne_error (p : TopNParams) (s : TopNState K) (k : K)
    (e : PanicE) : deleteFromMiddle p s k ≠ .error e := by
  intro h
  unfold deleteFromMiddle at h
  split at h <;> cases h

theorem deleteFromLowest_ne_error (p : TopNParams) (s : TopNState K) (k : K)
    (e : PanicE) : deleteFromLowest p s k ≠ .error e := by
  intro h
  unfold deleteFromLowest at h
  split at h <;> unfold refillMiddle at h <;> split at h <;> cases h

theorem deleteRow_total (p : TopNParams) (s : TopNState K) (k : K)
    (hoff : 1 ≤ p.offset) (hlim : 1 ≤ p.numLimit)
    (hcL : s.lowest.card ≤ p.offset) (hcM : s.middle.card ≤ p.numLimit) :
    ∃ out, deleteRow p s k = .ok out := by
  rcases hres : deleteRow p s k with e | out
  · exfalso
    unfold deleteRow at hres
    have hlower : deleteLower p s k ≠ .error e := by
      intro h
      unfold deleteLower at h
      split at h
      case isTrue hlc =>
        split at h
        · rename_i heq
          have hne : s.lowest.Nonempty := by
            apply Finset.card_pos.mp
            omega
          obtain ⟨m, hm⟩ := topMax_isSome hne
          rw [hm] at heq
          exact Option.noConfusion heq
        · split at h
          · exact deleteFromMiddle_ne_error p s k e h
          · exact deleteFromLowest_ne_error p s k e h
      case isFalse hlc =>
        exact deleteFromLowest_ne_error p s k e h
    split at hres
    case isTrue hmc =>
      split at hres
      · rename_i heq
        have hne : s.middle.Nonempty := by
          apply Finset.card_pos.mp
          omega
        obtain ⟨m, hm⟩ := topMax_isSome hne
        rw [hm] at heq
        exact Option.noConfusion heq
      · split at hres
        · cases hres
        · exact hlower hres
    case isFalse hmc =>
      exact hlower hres
  · exact ⟨out, rfl⟩

end DeleteSound

/-! ## The per-row step and chunk-level processing -/

section StepLemmas

variable {K : Type} [LinearOrder K] [DecidableEq K]

theorem applyRow_sound (p : TopNParams) {s s' : TopNState K} {r : Op × K}
    {ems : List (Op × K)}
    (hok : applyRow p s r = .ok (s', ems))
    (hInv : Inv p s) (hval : validOp (liveSet s) r) :
    Inv p s' ∧ liveSet s' = liveUpdate (liveSet s) r ∧
    applyDeltas s.middle ems = s'.middle := by
  rcases r with ⟨op, k⟩
  cases op
  · exact insertRow_sound p hok hInv hval
  · exact deleteRow_sound p hok hInv hval
  · exact deleteRow_sound p hok hInv hval
  · exact insertRow_sound p hok hInv hval

theorem applyRow_total (p : TopNParams) (s : TopNState K) (r : Op × K)
    (hoff : 1 ≤ p.offset) (hlim : 1 ≤ p.numLimit)
    (hcL : s.lowest.card ≤ p.offset) (hcM : s.middle.card ≤ p.numLimit) :
    ∃ out, applyRow p s r = .ok out := by
  rcases r with ⟨op, k⟩
  cases op
  · exact insertRow_total p s k hoff hlim hcM
  · exact deleteRow_total p s k hoff hlim hcL hcM
  · exact deleteRow_total p s k hoff hlim hcL hcM
  · exact insertRow_total p s k hoff hlim hcM

theorem Inv.empty (p : TopNParams) : Inv p (TopNState.empty (K := K)) := by
  refine ⟨⟨?_, ?_, ?_, ?_, ?_⟩, fun _ => ⟨rfl, rfl⟩, fun _ => rfl⟩ <;>
    simp [TopNState.empty]

theorem liveSet_empty : liveSet (TopNState.empty (K := K)) = ∅ := by
  simp [liveSet, TopNState.empty]

theorem card_liveAfter_le (rows : List (Op × K)) :
    ∀ S : Finset K, (liveAfter S rows).card ≤ S.card + rows.length := by
  induction rows with
  | nil => exact fun S => le_of_eq rfl
  | cons r rest ih =>
    intro S
    calc (liveAfter (liveUpdate S r) rest).card
        ≤ (liveUpdate S r).card + rest.length := ih _
      _ ≤ S.card + 1 + rest.length :=
          Nat.add_le_add_right (card_liveUpdate_le S r) _
      _ = S.card + (r :: rest).length := by simp [Nat.add_assoc, Nat.add_comm 1]

theorem processChunk_sound (p : TopNParams) (rows : List (Op × K)) :
    ∀ (s s' : TopNState K) (ems : List (Op × K)),
      processChunk p s rows = .ok (s', ems) → Inv p s →
      validRows (liveSet s) rows = true →
      Inv p s' ∧ liveSet s' = liveAfter (liveSet s) rows ∧
      applyDeltas s.middle ems = s'.middle := by
  induction rows with
  | nil =>
    intro s s' ems hok hInv _
    simp only [processChunk, Except.ok.injEq, Prod.mk.injEq] at hok
    obtain ⟨rfl, rfl⟩ := hok.symm
    exact ⟨hInv, rfl, rfl⟩
  | cons r rest ih =>
    intro s s' ems hok hInv hval
    obtain ⟨hvr, hvrest⟩ := validRows_cons.mp hval
    unfold processChunk at hok
    split at hok
    · cases hok
    rename_i s1 e1 heq
    split at hok
    · cases hok
    rename_i s2 e2 heq2
    simp only [Except.ok.injEq, Prod.mk.injEq] at hok
    obtain ⟨rfl, rfl⟩ := hok.symm
    obtain ⟨hInv1, hlive1, hdelta1⟩ := applyRow_sound p heq hInv hvr
    obtain ⟨hInv2, hlive2, hdelta2⟩ := ih s1 s2 e2 heq2 hInv1
      (by rw [hlive1]; exact hvrest)
    refine ⟨hInv2, ?_, ?_⟩
    · rw [liveAfter_cons, ← hlive1]
      exact hlive2
    · rw [applyDeltas_append, hdelta1]
      exact hdelta2

theorem processChunk_ok (p : TopNParams) (hoff : 1 ≤ p.offset)
    (hlim : 1 ≤ p.numLimit) (rows : List (Op × K)) :
    ∀ s : TopNState K, Inv p s → validRows (liveSet s) rows = true →
      ∃ s' ems, processChunk p s rows = .ok (s', ems) := by
  induction rows with
  | nil => exact fun s _ _ => ⟨s, [], rfl⟩
  | cons r rest ih =>
    intro s hInv hval
    obtain ⟨hvr, hvrest⟩ := validRows_cons.mp hval
    obtain ⟨⟨s1, e1⟩, heq⟩ :=
      applyRow_total p s r hoff hlim hInv.1.1 hInv.1.2.1
    obtain ⟨hInv1, hlive1, _⟩ := applyRow_sound p heq hInv hvr
    obtain ⟨s2, e2, heq2⟩ := ih s1 hInv1 (by rw [hlive1]; exact hvrest)
    refine ⟨s2, e1 ++ e2, ?_⟩
    show processChunk p s (r :: rest) = _
    simp only [processChunk, heq, heq2]

theorem allRows_cons (c : List (Op × K)) (rest : List (List (Op × K))) :
    allRows (c :: rest) = c ++ allRows rest := rfl

theorem allRows_append (t1 t2 : List (List (Op × K))) :
    allRows (t1 ++ t2) = allRows t1 ++ allRows t2 := by
  induction t1 with
  | nil => rfl
  | cons c rest ih =>
    simp only [List.cons_append, allRows_cons, ih, List.append_assoc]

theorem validRows_append (l1 : List (Op × K)) :
    ∀ (S : Finset K) (l2 : List (Op × K)),
      validRows S (l1 ++ l2) = true ↔
        validRows S l1 = true ∧ validRows (liveAfter S l1) l2 = true := by
  induction l1 with
  | nil =>
    intro S l2
    simp [validRows, liveAfter]
  | cons r rest ih =>
    intro S l2
    rw [List.cons_append, validRows_cons, validRows_cons, ih, liveAfter_cons]
    tauto

theorem liveAfter_append (S : Finset K) (l1 l2 : List (Op × K)) :
    liveAfter S (l1 ++ l2) = liveAfter (liveAfter S l1) l2 :=
  List.foldl_append ..

theorem processTrace_sound (p : TopNParams) (tr : List (List (Op × K))) :
    ∀ (s s' : TopNState K) (ems : List (Op × K)),
      processTrace p s tr = .ok (s', ems) → Inv p s →
      validRows (liveSet s) (allRows tr) = true →
      Inv p s' ∧ liveSet s' = liveAfter (liveSet s) (allRows tr) ∧
      applyDeltas s.middle ems = s'.middle := by
  induction tr with
  | nil =>
    intro s s' ems hok hInv _
    simp only [processTrace, Except.ok.injEq, Prod.mk.injEq] at hok
    obtain ⟨rfl, rfl⟩ := hok.symm
    exact ⟨hInv, rfl, rfl⟩
  | cons c rest ih =>
    intro s s' ems hok hInv hval
    rw [allRows_cons] at hval
    obtain ⟨hvc, hvrest⟩ := (validRows_append c _ _).mp hval
    unfold processTrace at hok
    split at hok
    · cases hok
    rename_i s1 e1 heq
    split at hok
    · cases hok
    rename_i s2 e2 heq2
    simp only [Except.ok.injEq, Prod.mk.injEq] at hok
    obtain ⟨rfl, rfl⟩ := hok.symm
    obtain ⟨hInv1, hlive1, hdelta1⟩ := processChunk_sound p c s s1 e1 heq hInv hvc
    obtain ⟨hInv2, hlive2, hdelta2⟩ := ih s1 s2 e2 heq2 hInv1
      (by rw [hlive1]; exact hvrest)
    refine ⟨hInv2, ?_, ?_⟩
    · rw [allRows_cons, liveAfter_append, ← hlive1]
      exact hlive2
    · rw [applyDeltas_append, hdelta1]
      exact hdelta2

theorem processTrace_ok (p : TopNParams) (hoff : 1 ≤ p.offset)
    (hlim : 1 ≤ p.numLimit) (tr : List (List (Op × K))) :
    ∀ s : TopNState K, Inv p s → validRows (liveSet s) (allRows tr) = true →
      ∃ s' ems, processTrace p s tr = .ok (s', ems) := by
  induction tr with
  | nil => exact fun s _ _ => ⟨s, [], rfl⟩
  | cons c rest ih =>
    intro s hInv hval
    rw [allRows_cons] at hval
    obtain ⟨hvc, hvrest⟩ := (validRows_append c _ _).mp hval
    obtain ⟨s1, e1, heq⟩ := processChunk_ok p hoff hlim c s hInv hvc
    obtain ⟨hInv1, hlive1, _⟩ := processChunk_sound p c s s1 e1 heq hInv hvc
    obtain ⟨s2, e2, heq2⟩ := ih s1 hInv1 (by rw [hlive1]; exact hvrest)
    refine ⟨s2, e1 ++ e2, ?_⟩
    show processTrace p s (c :: rest) = _
    simp only [processTrace, heq, heq2]

end StepLemmas

/-! ## The sorted-slice characterisation of the middle state -/

section SliceLemmas

variable {K : Type} [LinearOrder K] [DecidableEq K]

theorem sortedKeys_union {A B : Finset K} (h : ∀ a ∈ A, ∀ b ∈ B, a < b) :
    sortedKeys (A ∪ B) = sortedKeys A ++ sortedKeys B := by
  have hd : Disjoint A B := Finset.disjoint_left.mpr
    (fun {a} ha hb => absurd (h a ha a hb) (lt_irrefl a))
  apply List.eq_of_perm_of_sorted (r := (· ≤ ·))
  · rw [← Multiset.coe_eq_coe]
    show ((Finset.sort (· ≤ ·) (A ∪ B) : List K) : Multiset K) = _
    rw [Finset.sort_eq, ← (Multiset.coe_add _ _),
      ← Finset.disjUnion_eq_union A B hd]
    show A.1 + B.1 = _
    unfold sortedKeys
    rw [Finset.sort_eq, Finset.sort_eq]
  · exact Finset.sort_sorted _ _
  · refine List.pairwise_append.mpr
      ⟨Finset.sort_sorted _ _, Finset.sort_sorted _ _, ?_⟩
    intro a ha b hb
    exact le_of_lt (h a (Finset.mem_sort _ |>.mp ha) b (Finset.mem_sort _ |>.mp hb))

theorem sortedKeys_length (A : Finset K) : (sortedKeys A).length = A.card :=
  Finset.length_sort _

theorem sortedKeys_empty : sortedKeys (∅ : Finset K) = [] := by
  unfold sortedKeys
  exact Finset.sort_empty _

/-- The middle state of any state satisfying the inductive invariant is
exactly the slice `sort(S)[offset : offset+limit]` of the live set.  The
cardinality bound keeps the `usize::MAX` sentinel used for `limit = None`
out of reach. -/
theorem middle_sort_slice (p : TopNParams) (s : TopNState K)
    (hInv : Inv p s) (hb : s.middle.card < USIZE_MAX) :
    sortedKeys s.middle = specSlice p (sortedKeys (liveSet s)) := by
  obtain ⟨⟨hcL, hcM, hLM, hLH, hMH⟩, hg1, hg2⟩ := hInv
  have hLMH : ∀ a ∈ s.lowest ∪ s.middle, ∀ c ∈ s.highest, a < c := by
    intro a ha c hc
    rcases Finset.mem_union.mp ha with hx | hx
    · exact hLH a hx c hc
    · exact hMH a hx c hc
  have hsplit : sortedKeys (liveSet s) =
      sortedKeys s.lowest ++ sortedKeys s.middle ++ sortedKeys s.highest := by
    unfold liveSet
    rw [sortedKeys_union hLMH, sortedKeys_union hLM]
  rcases lt_or_eq_of_le hcL with hlow | hlow
  · obtain ⟨hM0, hH0⟩ := hg1 hlow
    rw [hsplit, hM0, hH0, sortedKeys_empty, List.append_nil, List.append_nil]
    have hdrop : (sortedKeys s.lowest).drop p.offset = [] :=
      List.drop_eq_nil_of_le (by rw [sortedKeys_length]; omega)
    unfold specSlice
    cases p.limit <;> simp [hdrop]
  · have hdrop : (sortedKeys s.lowest ++ sortedKeys s.middle ++
        sortedKeys s.highest).drop p.offset =
        sortedKeys s.middle ++ sortedKeys s.highest := by
      rw [List.append_assoc]
      have hofl : p.offset = (sortedKeys s.lowest).length := by
        rw [sortedKeys_length, ← hlow]
      rw [hofl, List.drop_left]
    unfold specSlice
    rcases hl : p.limit with _ | lim
    · simp only [hl]
      have hH0 : s.highest = ∅ := by
        apply hg2
        show s.middle.card < p.numLimit
        unfold TopNParams.numLimit
        rw [hl]
        exact hb
      rw [hsplit, hdrop, hH0, sortedKeys_empty, List.append_nil]
    · simp only [hl]
      have hnl : p.numLimit = lim := by
        unfold TopNParams.numLimit
        rw [hl]
        rfl
      rw [hsplit, hdrop]
      rcases lt_or_eq_of_le hcM with hmid | hmid
      · have hH0 : s.highest = ∅ := hg2 hmid
        rw [hH0, sortedKeys_empty, List.append_nil]
        exact (List.take_of_length_le (by rw [sortedKeys_length]; omega)).symm
      · have hml : lim = (sortedKeys s.middle).length := by
          rw [sortedKeys_length, hmid, hnl]
        rw [hml, List.take_left]

end SliceLemmas

/-! ## Claim theorems for the Top-N operator -/

section TopNClaims

variable {K : Type} [LinearOrder K] [DecidableEq K]

/-- C1 (counterexample to the claim as stated): with `offset = 0`,
`TopNExecutor::apply_chunk` panics on the very first insert
(`lowest.top_element().unwrap()` on an empty lowest state), and with
`limit = Some(0)` it panics on the first insert that reaches the middle
state, so for these parameter choices there is no output stream at all —
the claimed equality with `sort(S)[offset : offset+limit]` cannot hold
after the chunk. -/
theorem claimC1_counterexample :
    validRows (∅ : Finset ℕ) (allRows [[(Op.Insert, 0)]]) = true ∧
    processTrace ⟨0, some 4⟩ (TopNState.empty (K := ℕ)) [[(Op.Insert, 0)]] =
      .error .lowestUnwrapNone ∧
    validRows (∅ : Finset ℕ)
      (allRows [[(Op.Insert, 0), (Op.Insert, 1), (Op.Insert, 2), (Op.Insert, 3)]]) = true ∧
    processTrace ⟨3, some 0⟩ (TopNState.empty (K := ℕ))
      [[(Op.Insert, 0), (Op.Insert, 1), (Op.Insert, 2), (Op.Insert, 3)]] =
      .error .middleUnwrapNone := by
  refine ⟨by decide, by decide, by decide, by decide⟩

/-- C1 (amended): Top-N correctness.  For parameters with `offset ≥ 1` and
`limit ≠ Some 0`, for every well-formed trace of input chunks (inserts of
fresh keys, deletes of live keys) of fewer than `usize::MAX` rows, after
every input chunk (`n` chunks processed) the cumulative output stream
applied to an initially empty set equals the middle state, whose ascending
ordering is exactly `sort(S_current)[offset : offset+limit]` where
`S_current` is the set of live rows implied by the input history. -/
theorem topn_correctness (p : TopNParams)
    (hoff : 1 ≤ p.offset) (hlim : p.limit ≠ some 0)
    (trace : List (List (Op × K)))
    (hv : validRows ∅ (allRows trace) = true)
    (hb : (allRows trace).length < USIZE_MAX) (n : ℕ) :
    ∃ s ems, processTrace p TopNState.empty (trace.take n) = .ok (s, ems) ∧
      applyDeltas ∅ ems = s.middle ∧
      sortedKeys (applyDeltas ∅ ems) =
        specSlice p (sortedKeys (liveAfter ∅ (allRows (trace.take n)))) := by
  have hlim' : 1 ≤ p.numLimit := by
    unfold TopNParams.numLimit
    rcases hpl : p.limit with _ | l
    · show 1 ≤ USIZE_MAX
      unfold USIZE_MAX
      have : (2 : ℕ) ^ 64 = 18446744073709551616 := by norm_num
      omega
    · have : l ≠ 0 := fun e => hlim (by rw [hpl, e])
      show 1 ≤ l
      omega
  have hsplit0 : allRows (trace.take n) ++ allRows (trace.drop n) = allRows trace := by
    rw [← allRows_append, List.take_append_drop]
  have hpre : validRows (∅ : Finset K) (allRows (trace.take n)) = true := by
    have hv' := hv
    rw [← hsplit0] at hv'
    exact ((validRows_append _ _ _).mp hv').1
  obtain ⟨s, ems, hok⟩ := processTrace_ok p hoff hlim' (trace.take n)
    TopNState.empty (Inv.empty p) (by rw [liveSet_empty]; exact hpre)
  obtain ⟨hInv, hlive, hdelta⟩ := processTrace_sound p (trace.take n) _ s ems hok
    (Inv.empty p) (by rw [liveSet_empty]; exact hpre)
  have hlenpre : (allRows (trace.take n)).length ≤ (allRows trace).length := by
    rw [← hsplit0, List.length_append]
    omega
  have hmidcard : s.middle.card < USIZE_MAX := by
    have h1 : s.middle.card ≤ (liveSet s).card := by
      apply Finset.card_le_card
      unfold liveSet
      exact le_trans Finset.subset_union_right Finset.subset_union_left
    have h2 : (liveSet s).card ≤ (∅ : Finset K).card + (allRows (trace.take n)).length := by
      rw [hlive, liveSet_empty]
      exact card_liveAfter_le _ _
    simp only [Finset.card_empty] at h2
    omega
  have hslice := middle_sort_slice p s hInv hmidcard
  have hdelta' : applyDeltas (∅ : Finset K) ems = s.middle := hdelta
  refine ⟨s, ems, hok, hdelta', ?_⟩
  rw [hdelta', hslice, hlive, liveSet_empty]

/-- C1 witness. -/
theorem topn_correctness_witness :
    ∃ s ems,
      processTrace ⟨1, some 2⟩ (TopNState.empty (K := ℕ))
        ([[(Op.Insert, 5)]].take 1) = .ok (s, ems) ∧
      applyDeltas ∅ ems = s.middle ∧
      sortedKeys (applyDeltas ∅ ems) =
        specSlice ⟨1, some 2⟩ (sortedKeys (liveAfter ∅ (allRows ([[(Op.Insert, 5)]].take 1)))) :=
  topn_correctness ⟨1, some 2⟩ (by decide) (by decide) [[(Op.Insert, 5)]]
    (by decide) (by decide) 1

/-- C2 (counterexample to the claim as stated): the claim restricts traces
only by "deletes only of live rows".  Inserting the same key twice (no
deletes at all) drives the state to `Low = {5}`, `Mid = {5}` with
`offset = 1`, violating `max(Low) < min(Mid)`. -/
theorem claimC2_counterexample :
    validDeletes (∅ : Finset ℕ) (allRows [[(Op.Insert, 5)], [(Op.Insert, 5)]]) = true ∧
    processTrace ⟨1, some 4⟩ (TopNState.empty (K := ℕ))
      [[(Op.Insert, 5)], [(Op.Insert, 5)]] =
      .ok (⟨{5}, {5}, ∅⟩, [(Op.Insert, 5)]) ∧
    ¬ RegionInv ⟨1, some 4⟩ (⟨{5}, {5}, ∅⟩ : TopNState ℕ) := by
  refine ⟨by decide, by decide, ?_⟩
  intro hR
  obtain ⟨_, _, hLM, _, _⟩ := hR
  exact absurd (hLM 5 (by decide) 5 (by decide)) (lt_irrefl 5)

/-- C2 (amended): Top-N region invariants.  For every well-formed trace
(inserts of fresh keys, deletes of live keys), at every chunk boundary that
`apply_chunk` reaches without panicking, the three managed states satisfy
`|Low| ≤ offset`, `|Mid| ≤ num_limit` and
`max(Low) < min(Mid) ≤ max(Mid) < min(High)` (element-wise, each clause
trivially true when a side is empty). -/
theorem topn_region_invariants (p : TopNParams)
    (trace : List (List (Op × K)))
    (hv : validRows ∅ (allRows trace) = true) (n : ℕ)
    (s : TopNState K) (ems : List (Op × K))
    (hok : processTrace p TopNState.empty (trace.take n) = .ok (s, ems)) :
    RegionInv p s := by
  have hsplit0 : allRows (trace.take n) ++ allRows (trace.drop n) = allRows trace := by
    rw [← allRows_append, List.take_append_drop]
  have hpre : validRows (∅ : Finset K) (allRows (trace.take n)) = true := by
    have hv' := hv
    rw [← hsplit0] at hv'
    exact ((validRows_append _ _ _).mp hv').1
  obtain ⟨hInv, _, _⟩ := processTrace_sound p (trace.take n) _ s ems hok
    (Inv.empty p) (by rw [liveSet_empty]; exact hpre)
  exact hInv.1

/-- C2 witness. -/
theorem topn_region_invariants_witness :
    RegionInv ⟨1, some 1⟩ (⟨{3}, ∅, ∅⟩ : TopNState ℕ) :=
  topn_region_invariants ⟨1, some 1⟩ [[(Op.Insert, 3)]] (by decide) 1
    ⟨{3}, ∅, ∅⟩ [] (by decide)

/-- C3 (code bug): `TopNExecutor::new` initialises `first_execution` to
`false` (top_n.rs line 93), so the `fill_in_cache` block at the top of
`apply_chunk` (lines 122–127) never runs: after the first call the fill
count is `0`, not `1`.  Had the flag been `true` on construction — the
behaviour the specification requires — exactly one fill would happen and
the flag would be cleared. -/
theorem first_execution_bug :
    newFirstExecution = false ∧
    (applyChunkFillStep (newFirstExecution, 0)).2 = 0 ∧
    (applyChunkFillStep (newFirstExecution, 0)).1 = false ∧
    (applyChunkFillStep (true, 0)).2 = 1 ∧
    (applyChunkFillStep (true, 0)).1 = false := by
  decide

/-- C4: scenario S1.  `offset = 3`, `limit = Some 4`, ascending order on
`pk = (c0, c1)`, starting from the empty state; the chunk with ops
`IIIIII`, `c0 = [1,2,3,10,9,8]`, `c1 = [0,1,2,3,4,5]` produces the output
chunk with ops `[Insert, Insert, Insert]` and rows `(10,3), (9,4), (8,5)`
in that emission order (`c0 = [10,9,8]`), leaving
`Low = {1,2,3}`, `Mid = {8,9,10}`, `High = ∅`. -/
theorem scenario_s1 :
    applyChunkOut ⟨3, some 4⟩ (TopNState.empty (K := OrderedPair))
      [(.Insert, ⟨1, 0⟩), (.Insert, ⟨2, 1⟩), (.Insert, ⟨3, 2⟩),
       (.Insert, ⟨10, 3⟩), (.Insert, ⟨9, 4⟩), (.Insert, ⟨8, 5⟩)] =
    .ok (⟨[.Insert, .Insert, .Insert], [[⟨10, 3⟩, ⟨9, 4⟩, ⟨8, 5⟩]]⟩,
         ⟨{⟨1, 0⟩, ⟨2, 1⟩, ⟨3, 2⟩}, {⟨8, 5⟩, ⟨9, 4⟩, ⟨10, 3⟩}, ∅⟩) ∧
    ([⟨10, 3⟩, ⟨9, 4⟩, ⟨8, 5⟩] : List OrderedPair).map OrderedPair.c0 =
      [10, 9, 8] := by
  refine ⟨by decide, by decide⟩

/-- C8 (counterexample to the claim as stated): with `offset = 0` and an
empty lowest state, `apply_chunk` does panic on an `Insert`:
`lowest.total_count() < offset` is false and `top_element().unwrap()` is
reached with an empty lowest state. -/
theorem claimC8_counterexample :
    applyRow ⟨0, some 4⟩ (TopNState.empty (K := ℕ)) (Op.Insert, 0) =
      .error .lowestUnwrapNone ∧
    applyRow ⟨0, some 4⟩ (TopNState.empty (K := ℕ)) (Op.UpdateInsert, 0) =
      .error .lowestUnwrapNone := by
  refine ⟨by decide, by decide⟩

/-- C8 (amended): insert-path safety.  Under `offset ≥ 1`, whenever the
lowest state's `total_count` (its cardinality in the model) is not below
`offset`, the lowest state is non-empty, so `top_element()` returns `Some`
and the `unwrap` in the insert arm cannot fail; on any state and key the
insert arm never raises the lowest-state panic. -/
theorem insert_no_lowest_panic (p : TopNParams) (s : TopNState K) (k : K)
    (hoff : 1 ≤ p.offset) :
    applyRow p s (Op.Insert, k) ≠ .error .lowestUnwrapNone ∧
    applyRow p s (Op.UpdateInsert, k) ≠ .error .lowestUnwrapNone :=
  ⟨insertRow_no_lowest_panic p s k hoff, insertRow_no_lowest_panic p s k hoff⟩

/-- C8 witness. -/
theorem insert_no_lowest_panic_witness :
    applyRow ⟨1, some 4⟩ (TopNState.empty (K := ℕ)) (Op.Insert, 7) ≠
      .error .lowestUnwrapNone ∧
    applyRow ⟨1, some 4⟩ (TopNState.empty (K := ℕ)) (Op.UpdateInsert, 7) ≠
      .error .lowestUnwrapNone :=
  insert_no_lowest_panic ⟨1, some 4⟩ TopNState.empty 7 (by decide)

/-- C9: empty-delta output.  When processing an input chunk emits no output
rows, `apply_chunk` returns `Ok` with
`StreamChunk::new(vec![], vec![], None)`: an output chunk with an empty ops
vector and an empty column list — not an error and not a suppressed
message. -/
theorem empty_delta_output (p : TopNParams) {s s' : TopNState K}
    {rows : List (Op × K)}
    (h : processChunk p s rows = .ok (s', [])) :
    applyChunkOut p s rows = .ok (⟨[], []⟩, s') := by
  unfold applyChunkOut
  rw [h]
  rfl

/-- C9 witness: a chunk whose two inserts both land in `Low`
(`offset = 3`) produces no output rows, and `apply_chunk` returns the empty
chunk. -/
theorem empty_delta_output_witness :
    applyChunkOut ⟨3, some 4⟩ (TopNState.empty (K := ℕ))
      [(Op.Insert, 1), (Op.Insert, 2)] =
      .ok (⟨[], []⟩, ⟨{2, 1}, ∅, ∅⟩) :=
  empty_delta_output ⟨3, some 4⟩ (by decide)

end TopNClaims

/-! ## Fragment-manager lemmas and claims -/

section ManagerClaims

theorem lookupFragment_append_isSome (m : List (ℕ × StreamFragment))
    (x : ℕ × StreamFragment) (id : ℕ)
    (h : (lookupFragment m id).isSome = true) :
    (lookupFragment (m ++ [x]) id).isSome = true := by
  induction m with
  | nil => cases h
  | cons hd rest ih =>
    rcases hd with ⟨i, f⟩
    rw [List.cons_append]
    by_cases hi : i = id
    · simp [lookupFragment, hi]
    · unfold lookupFragment at h ⊢
      rw [if_neg hi] at h ⊢
      exact ih h

theorem installFragments_duplicate (frags : List StreamFragment) :
    ∀ m : List (ℕ × StreamFragment),
      (∃ f ∈ frags, (lookupFragment m f.fragmentId).isSome = true) →
      ∃ id, installFragments m frags =
        .error (.internalErrorDuplicatedFragment id) := by
  induction frags with
  | nil =>
    intro m h
    obtain ⟨f, hf, _⟩ := h
    exact absurd hf (List.not_mem_nil f)
  | cons f rest ih =>
    intro m h
    unfold installFragments
    by_cases hf : (lookupFragment m f.fragmentId).isSome = true
    · rw [if_pos hf]
      exact ⟨f.fragmentId, rfl⟩
    · rw [if_neg hf]
      apply ih
      obtain ⟨g, hg, hsome⟩ := h
      rcases List.mem_cons.mp hg with rfl | hg
      · exact absurd hsome hf
      · exact ⟨g, hg, lookupFragment_append_isSome m _ _ hsome⟩

/-- C5: for every `update_fragment` call whose argument contains a fragment
id already installed in the manager's fragment map, the call fails with the
duplicate-fragment error
(`ErrorCode::InternalError("duplicated fragment {id}")`, the spec's
`DuplicateFragment`). -/
theorem update_fragment_duplicate (core : StreamManagerCore)
    (frags : List StreamFragment)
    (hdup : ∃ f ∈ frags, (lookupFragment core.fragments f.fragmentId).isSome = true) :
    ∃ id, updateFragment core frags =
      .error (.internalErrorDuplicatedFragment id) := by
  obtain ⟨id, he⟩ := installFragments_duplicate frags core.fragments hdup
  refine ⟨id, ?_⟩
  unfold updateFragment
  rw [he]

/-- C5 witness. -/
theorem update_fragment_duplicate_witness :
    ∃ id, updateFragment ⟨[(1, ⟨1, []⟩)], fun _ => none⟩ [⟨1, []⟩] =
      .error (.internalErrorDuplicatedFragment id) :=
  update_fragment_duplicate ⟨[(1, ⟨1, []⟩)], fun _ => none⟩ [⟨1, []⟩]
    ⟨⟨1, []⟩, List.mem_singleton.mpr rfl, rfl⟩

theorem poolWrite_self (cur d : ℕ) (pl : ChannelPool) :
    poolWrite cur d pl (cur, d) = some freshChannelPair := by
  unfold poolWrite
  rw [if_pos rfl]

theorem poolWrite_preserves (cur d : ℕ) (pl : ChannelPool) (key : ℕ × ℕ)
    (h : pl key = some freshChannelPair) :
    poolWrite cur d pl key = some freshChannelPair := by
  unfold poolWrite
  split
  · rfl
  · exact h

theorem addDownstreamChannels_preserves (ds : List ℕ) :
    ∀ (pool : ChannelPool) (cur : ℕ) (key : ℕ × ℕ),
      pool key = some freshChannelPair →
      addDownstreamChannels cur ds pool key = some freshChannelPair := by
  induction ds with
  | nil => exact fun pool cur key h => h
  | cons d rest ih =>
    intro pool cur key h
    unfold addDownstreamChannels
    rw [List.foldl_cons]
    exact ih _ cur key (poolWrite_preserves cur d pool key h)

theorem addDownstreamChannels_writes (ds : List ℕ) :
    ∀ (pool : ChannelPool) (cur d : ℕ), d ∈ ds →
      addDownstreamChannels cur ds pool (cur, d) = some freshChannelPair := by
  induction ds with
  | nil =>
    intro pool cur d h
    exact absurd h (List.not_mem_nil d)
  | cons d0 rest ih =>
    intro pool cur d h
    unfold addDownstreamChannels
    rw [List.foldl_cons]
    rcases List.mem_cons.mp h with rfl | h
    · exact addDownstreamChannels_preserves rest _ cur _ (poolWrite_self cur d pool)
    · exact ih _ cur d h

theorem createChannels_preserves (l : List (ℕ × StreamFragment)) :
    ∀ (pool : ChannelPool) (key : ℕ × ℕ),
      pool key = some freshChannelPair →
      createChannels l pool key = some freshChannelPair := by
  induction l with
  | nil => exact fun pool key h => h
  | cons cf rest ih =>
    intro pool key h
    unfold createChannels
    rw [List.foldl_cons]
    exact ih _ _ (addDownstreamChannels_preserves _ _ _ _ h)

theorem createChannels_writes (l : List (ℕ × StreamFragment)) :
    ∀ (pool : ChannelPool) (cf : ℕ × StreamFragment) (d : ℕ),
      cf ∈ l → d ∈ cf.2.downstreamFragmentId →
      createChannels l pool (cf.1, d) = some freshChannelPair := by
  induction l with
  | nil =>
    intro pool cf d h _
    exact absurd h (List.not_mem_nil cf)
  | cons c0 rest ih =>
    intro pool cf d h hd
    unfold createChannels
    rw [List.foldl_cons]
    rcases List.mem_cons.mp h with rfl | h
    · exact createChannels_preserves rest _ _
        (addDownstreamChannels_writes _ _ _ _ hd)
    · exact ih _ cf d h hd

/-- C7: channel pre-creation.  After a successful `update_fragment(list)`,
for every installed fragment and every downstream id it lists, the channel
pool holds under the edge key `(fragment_id, downstream_id)` both a sender
and a receiver of a bounded channel of capacity 16
(`LOCAL_OUTPUT_CHANNEL_SIZE`). -/
theorem channel_precreate (core : StreamManagerCore)
    (frags : List StreamFragment) (core' : StreamManagerCore)
    (hok : updateFragment core frags = .ok core')
    (cf : ℕ × StreamFragment) (hmem : cf ∈ core'.fragments)
    (d : ℕ) (hd : d ∈ cf.2.downstreamFragmentId) :
    core'.channelPool (cf.1, d) =
      some (some LOCAL_OUTPUT_CHANNEL_SIZE, some LOCAL_OUTPUT_CHANNEL_SIZE) := by
  unfold updateFragment at hok
  split at hok
  · cases hok
  rename_i m heq
  simp only [Except.ok.injEq] at hok
  subst hok
  exact createChannels_writes m core.channelPool cf d hmem hd

/-- C7 witness. -/
theorem channel_precreate_witness :
    createChannels [(1, ⟨1, [2]⟩)] (fun _ => none) (1, 2) =
      some (some LOCAL_OUTPUT_CHANNEL_SIZE, some LOCAL_OUTPUT_CHANNEL_SIZE) :=
  channel_precreate ⟨[], fun _ => none⟩ [⟨1, [2]⟩]
    ⟨[(1, ⟨1, [2]⟩)], createChannels [(1, ⟨1, [2]⟩)] (fun _ => none)⟩ rfl
    (1, ⟨1, [2]⟩) (List.mem_singleton.mpr rfl) 2 (List.mem_singleton.mpr rfl)

end ManagerClaims

/-! ## State-store URL dispatch: lemmas and claims -/

section StateStoreClaims

theorem isPre_trans {a b s : List Char} (hab : isPre a b = true)
    (hbs : isPre b s = true) : isPre a s = true := by
  induction a generalizing b s with
  | nil => rfl
  | cons x xs ih =>
    cases b with
    | nil => cases hab
    | cons y ys =>
      cases s with
      | nil => cases hbs
      | cons z zs =>
        simp only [isPre, Bool.and_eq_true, beq_iff_eq] at hab hbs ⊢
        exact ⟨hab.1.trans hbs.1, ih hab.2 hbs.2⟩

theorem isPre_isPre {a b s : List Char} (ha : isPre a s = true)
    (hb : isPre b s = true) (hlen : a.length ≤ b.length) :
    isPre a b = true := by
  induction a generalizing b s with
  | nil => rfl
  | cons x xs ih =>
    cases s with
    | nil => cases ha
    | cons z zs =>
      cases b with
      | nil => simp at hlen
      | cons y ys =>
        simp only [isPre, Bool.and_eq_true, beq_iff_eq] at ha hb ⊢
        simp only [List.length_cons, Nat.add_le_add_iff_right] at hlen
        exact ⟨ha.1.trans hb.1.symm, ih ha.2 hb.2 hlen⟩

theorem isPre_ne {p s t : List Char} (h : isPre p s = true)
    (ht : isPre p t = false) : s ≠ t := by
  intro e
  subst e
  rw [h] at ht
  cases ht

/-- C6 (counterexample to the claim as stated): a state-store string that
starts with `tikv` but not with `tikv://` does not select the TiKV store —
`get_state_store_impl` panics at `.strip_prefix("tikv://").unwrap()`; and
the scheme `in-memory`, which the claim's enumeration would send to the
unknown-scheme error, selects the in-memory store. -/
theorem claimC6_counterexample :
    getStateStoreImpl (some "tikvx".toList) = .unwrapPanic ∧
    (∀ e, getStateStoreImpl (some "tikvx".toList) ≠ .tikvStateStore e) ∧
    getStateStoreImpl (some "in-memory".toList) = .memoryStateStore := by
  refine ⟨by decide, ?_, by decide⟩
  intro e he
  have h1 : getStateStoreImpl (some "tikvx".toList) = .unwrapPanic := by decide
  rw [h1] at he
  cases he

/-- C6 (amended): state-store URL dispatch.  `in_memory`, `in-memory` and a
missing scheme select the in-memory store; a string starting with `tikv://`
selects the TiKV store with the stripped endpoints; a string starting with
`tikv` but not `tikv://` fails at startup with the `strip_prefix` unwrap
panic; `hummock+minio://` and `hummock+s3://` select the Hummock store; any
other scheme produces the `unimplemented!` startup error. -/
theorem state_store_url_dispatch :
    getStateStoreImpl none = .memoryStateStore ∧
    getStateStoreImpl (some "in_memory".toList) = .memoryStateStore ∧
    getStateStoreImpl (some "in-memory".toList) = .memoryStateStore ∧
    (∀ s : List Char, isPre "tikv://".toList s = true →
      getStateStoreImpl (some s) = .tikvStateStore (s.drop 7)) ∧
    (∀ s : List Char, isPre "tikv".toList s = true →
      isPre "tikv://".toList s = false →
      getStateStoreImpl (some s) = .unwrapPanic) ∧
    (∀ s : List Char, isPre "hummock+minio://".toList s = true →
      getStateStoreImpl (some s) = .hummockStateStore (.minio (s.drop 8))) ∧
    (∀ s : List Char, isPre "hummock+s3://".toList s = true →
      getStateStoreImpl (some s) = .hummockStateStore (.s3 (s.drop 13))) ∧
    (∀ s : List Char, s ≠ "in_memory".toList → s ≠ "in-memory".toList →
      isPre "tikv".toList s = false →
      isPre "hummock+minio://".toList s = false →
      isPre "hummock+s3://".toList s = false →
      getStateStoreImpl (some s) = .unimplementedPanic s) := by
  refine ⟨rfl, by decide, by decide, ?_, ?_, ?_, ?_, ?_⟩
  · intro s h
    have htk : isPre "tikv".toList s = true :=
      isPre_trans (by decide) h
    have h1 : s ≠ "in_memory".toList := isPre_ne h (by decide)
    have h2 : s ≠ "in-memory".toList := isPre_ne h (by decide)
    simp only [getStateStoreImpl]
    rw [if_neg h1, if_neg h2, if_pos htk, if_pos h]
  · intro s h h7
    have h1 : s ≠ "in_memory".toList := isPre_ne h (by decide)
    have h2 : s ≠ "in-memory".toList := isPre_ne h (by decide)
    simp only [getStateStoreImpl]
    rw [if_neg h1, if_neg h2, if_pos h, if_neg (by rw [h7]; exact Bool.false_ne_true)]
  · intro s h
    have h1 : s ≠ "in_memory".toList := isPre_ne h (by decide)
    have h2 : s ≠ "in-memory".toList := isPre_ne h (by decide)
    have htk : isPre "tikv".toList s = false := by
      rcases htk : isPre "tikv".toList s with _ | _
      · rfl
      · exact absurd (isPre_isPre htk h (by decide)) (by decide)
    simp only [getStateStoreImpl]
    rw [if_neg h1, if_neg h2, if_neg (by rw [htk]; exact Bool.false_ne_true), if_pos h]
  · intro s h
    have h1 : s ≠ "in_memory".toList := isPre_ne h (by decide)
    have h2 : s ≠ "in-memory".toList := isPre_ne h (by decide)
    have htk : isPre "tikv".toList s = false := by
      rcases htk : isPre "tikv".toList s with _ | _
      · rfl
      · exact absurd (isPre_isPre htk h (by decide)) (by decide)
    have hmn : isPre "hummock+minio://".toList s = false := by
      rcases hmn : isPre "hummock+minio://".toList s with _ | _
      · rfl
      · exact absurd (isPre_isPre h hmn (by decide)) (by decide)
    simp only [getStateStoreImpl]
    rw [if_neg h1, if_neg h2, if_neg (by rw [htk]; exact Bool.false_ne_true),
      if_neg (by rw [hmn]; exact Bool.false_ne_true), if_pos h]
  · intro s h1 h2 htk hmn hs3
    simp only [getStateStoreImpl]
    rw [if_neg h1, if_neg h2, if_neg (by rw [htk]; exact Bool.false_ne_true),
      if_neg (by rw [hmn]; exact Bool.false_ne_true),
      if_neg (by rw [hs3]; exact Bool.false_ne_true)]

/-- C6 witness. -/
theorem state_store_url_dispatch_witness :
    getStateStoreImpl (some "tikv://a".toList) =
      .tikvStateStore ("tikv://a".toList.drop 7) ∧
    getStateStoreImpl (some "hummock+minio://x".toList) =
      .hummockStateStore (.minio ("hummock+minio://x".toList.drop 8)) ∧
    getStateStoreImpl (some "hummock+s3://b".toList) =
      .hummockStateStore (.s3 ("hummock+s3://b".toList.drop 13)) ∧
    getStateStoreImpl (some "foo".toList) = .unimplementedPanic "foo".toList :=
  ⟨state_store_url_dispatch.2.2.2.1 _ (by decide),
   state_store_url_dispatch.2.2.2.2.2.1 _ (by decide),
   state_store_url_dispatch.2.2.2.2.2.2.1 _ (by decide),
   state_store_url_dispatch.2.2.2.2.2.2.2 _ (by decide) (by decide) (by decide)
     (by decide) (by decide)⟩

end StateStoreClaims

/-! ## `IS NULL` / `IS NOT NULL` claims -/

section IsNullClaims

/-- C10: over the same child output, `IsNullExpression::eval` and
`IsNotNullExpression::eval` both return boolean arrays with no null entry
whose length equals the child's output length, and entry `i` of the
`IS NULL` result is the pointwise negation of entry `i` of the
`IS NOT NULL` result: it is `true` exactly where the child's null bitmap
marks the value null. -/
theorem is_null_pointwise {V : Type} (child : List (Option V)) (i : ℕ)
    (h : i < child.length) :
    (evalIsNull child).length = child.length ∧
    (evalIsNotNull child).length = child.length ∧
    (∀ x ∈ evalIsNull child, x.isSome = true) ∧
    (∀ x ∈ evalIsNotNull child, x.isSome = true) ∧
    (evalIsNull child).get? i = some (some ((child.get ⟨i, h⟩).isNone)) ∧
    (evalIsNotNull child).get? i = some (some (!(child.get ⟨i, h⟩).isNone)) := by
  refine ⟨?_, ?_, ?_, ?_, ?_, ?_⟩
  · simp [evalIsNull, nullBitmap]
  · simp [evalIsNotNull, nullBitmap]
  · intro x hx
    simp only [evalIsNull, List.mem_map] at hx
    obtain ⟨b, _, rfl⟩ := hx
    rfl
  · intro x hx
    simp only [evalIsNotNull, List.mem_map] at hx
    obtain ⟨b, _, rfl⟩ := hx
    rfl
  · simp only [evalIsNull, nullBitmap, List.map_map, List.get?_eq_getElem?,
      List.getElem?_map, List.getElem?_eq_getElem h, Function.comp_apply,
      Option.map_some, Option.some.injEq, List.get_eq_getElem]
    cases child[i] <;> rfl
  · simp only [evalIsNotNull, nullBitmap, List.map_map, List.get?_eq_getElem?,
      List.getElem?_map, List.getElem?_eq_getElem h, Function.comp_apply,
      Option.map_some, Option.some.injEq, List.get_eq_getElem]
    cases child[i] <;> rfl

/-- C10 witness. -/
theorem is_null_pointwise_witness :
    (evalIsNull [some 1, none]).length = 2 ∧
    (evalIsNotNull [some (1 : ℕ), none]).length = 2 ∧
    (evalIsNull [some (1 : ℕ), none]).get? 1 = some (some true) ∧
    (evalIsNotNull [some (1 : ℕ), none]).get? 1 = some (some false) := by
  obtain ⟨h1, h2, _, _, h5, h6⟩ :=
    is_null_pointwise [some (1 : ℕ), none] 1 (by decide)
  exact ⟨h1, h2, h5, h6⟩

end IsNullClaims

end RisingWave
